import Mathlib

/-!
Verification of the algorithm engine of the farm-irrigation visualizer
(`pipeline_system.py`).  The engine consists of a disjoint set with path
compression and union by rank (`DisjointSet`), a Kruskal trace generator
(`kruskal_mst_steps`), a Dijkstra run with an event trace
(`dijkstra_shortest_path_with_steps`) and a path reconstructor
(`reconstruct_path`).  Each definition below is a direct translation of the
corresponding Python function; modelling choices:

* weights are naturals for the Dijkstra side (the spec requires
  non-negative weights) and an arbitrary linearly ordered type for the
  Kruskal side, so that negative (integer) weights can be discussed;
* Python dictionaries/lists indexed by nodes become total functions
  `Nat → _`; `float("inf")` becomes `none : Option Nat`;
* the `heapq` priority queue is modelled as a list kept sorted by the
  lexicographic order on `(distance, node)`; `heappop` takes the head,
  `heappush` inserts in order.  `heapq` pops the minimum tuple, so the
  popped sequence is identical;
* Python's `sorted(edges, key=weight)` is a stable sort by weight; it is
  modelled by `List.insertionSort` on the weight projection, which is also
  stable, and stability plus sortedness determine the output uniquely;
* the recursive `find` and the two unbounded loops (Dijkstra's `while`
  and the reconstruction walk) take an explicit fuel argument; the chosen
  fuels are proved sufficient below.
-/

namespace Farm

/-- The event alphabet of both generators (`yield`ed tuples in the source,
the `Event` variants of the spec). -/
inductive Step (α : Type) where
  | check (w : α) (u v : Nat)
  | accept (w : α) (u v : Nat)
  | reject (w : α) (u v : Nat)
  | finalized (x : Nat)
  | relaxed (u v : Nat) (d : α)
  | compareWorse (u v : Nat) (d : α)
  deriving DecidableEq

/-- `DisjointSet.parent` and `DisjointSet.rank`, as total functions. -/
structure DS where
  parent : Nat → Nat
  rank : Nat → Nat

/-- `DisjointSet.__init__`: `parent = list(range(size))`, `rank = [0]*size`.
Out-of-range indices (which raise IndexError in Python) keep the identity
parent and rank `0`. -/
def dsInit (_size : Nat) : DS := ⟨fun i => i, fun _ => 0⟩

/-- Pointwise update of the parent array. -/
def setParent (st : DS) (i r : Nat) : DS :=
  ⟨fun x => if x = i then r else st.parent x, st.rank⟩

/-- Pointwise update of the rank array. -/
def setRank (st : DS) (i r : Nat) : DS :=
  ⟨st.parent, fun x => if x = i then r else st.rank x⟩

/-- `DisjointSet.find` with path compression:
`if parent[i] == i: return i; parent[i] = find(parent[i]); return parent[i]`.
The recursion is fuelled; fuel `size` is enough for every state reachable
from `dsInit` (proved below). -/
def dsFind : Nat → DS → Nat → DS × Nat
  | 0, st, i => (st, i)
  | f + 1, st, i =>
    if st.parent i = i then (st, i)
    else
      let p := dsFind f st (st.parent i)
      (setParent p.1 i p.2, p.2)

/-- `DisjointSet.union` (lines 29-41 of the source): find both roots; if they
differ, attach by rank (ties: `j`'s root under `i`'s root, bump `i`'s rank)
and return `True`, else return `False`. -/
def dsUnion (n : Nat) (st : DS) (i j : Nat) : DS × Bool :=
  let p := dsFind n st i
  let q := dsFind n p.1 j
  let ri := p.2
  let rj := q.2
  let st2 := q.1
  if ri = rj then (st2, false)
  else if st2.rank ri < st2.rank rj then (setParent st2 ri rj, true)
  else if st2.rank rj < st2.rank ri then (setParent st2 rj ri, true)
  else (setRank (setParent st2 rj ri) ri (st2.rank ri + 1), true)

/-- `sorted(edges, key=lambda item: item[0])`: stable sort by weight. -/
def sortEdges {α : Type} [LinearOrder α] (edges : List (α × Nat × Nat)) :
    List (α × Nat × Nat) :=
  List.insertionSort (fun a b => a.1 ≤ b.1) edges

/-- The loop body of `kruskal_mst_steps`: for each sorted edge yield
`CHECK`, then `ACCEPT` or `REJECT` according to `ds.union(u, v)`. -/
def kruskalGo (n : Nat) : DS → List (α × Nat × Nat) → List (Step α)
  | _, [] => []
  | st, (w, u, v) :: rest =>
    let p := dsUnion n st u v
    Step.check w u v ::
      (if p.2 then Step.accept w u v else Step.reject w u v) ::
        kruskalGo n p.1 rest

/-- `kruskal_mst_steps(nodes, edges)` as the list of all yielded events
(`n` is `len(nodes)`). -/
def kruskalTrace {α : Type} [LinearOrder α] (n : Nat)
    (edges : List (α × Nat × Nat)) : List (Step α) :=
  kruskalGo n (dsInit n) (sortEdges edges)

/-- One step of the adjacency build: for the edge `(cost, u, v)` append
`(cost, v)` to `adj[u]` and then `(cost, u)` to `adj[v]`. -/
def adjStep (f : Nat → List (Nat × Nat)) (e : Nat × Nat × Nat) :
    Nat → List (Nat × Nat) := fun x =>
  (if x = e.2.1 then f x ++ [(e.1, e.2.2)] else f x) ++
    (if x = e.2.2 then [(e.1, e.2.1)] else [])

/-- The adjacency build of `dijkstra_shortest_path_with_steps` (lines
58-61): both directions are inserted per undirected edge, in edge-list
order. -/
def buildAdj (edges : List (Nat × Nat × Nat)) : Nat → List (Nat × Nat) :=
  edges.foldl adjStep (fun _ => [])

/-- `c < dv` where `dv` may be `float("inf")` (`none`). -/
def ltO (c : Nat) : Option Nat → Bool
  | none => true
  | some d => decide (c < d)

/-- `current_distance > distances[current_node]`, the stale-entry test;
`none` stands for infinity, which no natural exceeds. -/
def staleB (dv : Option Nat) (d : Nat) : Bool :=
  match dv with
  | none => false
  | some x => decide (x < d)

/-- Lexicographic order on `(distance, node)` pairs, the order `heapq` uses
on the pushed tuples. -/
def pairLe (a b : Nat × Nat) : Prop :=
  a.1 < b.1 ∨ (a.1 = b.1 ∧ a.2 ≤ b.2)

instance : DecidableRel pairLe := fun a b => by
  unfold pairLe; infer_instance

/-- `heapq.heappush`: the queue is kept sorted, insertion preserves order. -/
def qInsert (p : Nat × Nat) : List (Nat × Nat) → List (Nat × Nat)
  | [] => [p]
  | q :: rest => if pairLe p q then p :: q :: rest else q :: qInsert p rest

/-- The mutable state of one Dijkstra run: `distances`, `previous_nodes`,
`priority_queue` and the accumulated `steps`. -/
structure DState where
  dist : Nat → Option Nat
  prev : Nat → Option Nat
  queue : List (Nat × Nat)
  steps : List (Step Nat)

/-- The neighbor body (lines 78-86): `distance = current_distance + weight`;
relax and push and record `RELAXED` on strict improvement, else record
`COMPARE_WORSE`. -/
def relaxOne (d u : Nat) (s : DState) (e : Nat × Nat) : DState :=
  let c := d + e.1
  let v := e.2
  if ltO c (s.dist v) then
    { dist := fun x => if x = v then some c else s.dist x
      prev := fun x => if x = v then some u else s.prev x
      queue := qInsert (c, v) s.queue
      steps := s.steps ++ [Step.relaxed u v c] }
  else { s with steps := s.steps ++ [Step.compareWorse u v c] }

/-- `for weight, neighbor in adj[current_node]`, left to right. -/
def relaxList (d u : Nat) : DState → List (Nat × Nat) → DState
  | s, [] => s
  | s, e :: rest => relaxList d u (relaxOne d u s e) rest

/-- One iteration of the `while priority_queue` loop: pop the minimum;
drop it silently if stale, otherwise record `FINALIZED` and process the
neighbors. -/
def dijkstraIter (adj : Nat → List (Nat × Nat)) (s : DState) : DState :=
  match s.queue with
  | [] => s
  | (d, u) :: rest =>
    if staleB (s.dist u) d then { s with queue := rest }
    else
      relaxList d u
        { s with queue := rest, steps := s.steps ++ [Step.finalized u] }
        (adj u)

/-- The fuelled `while priority_queue` loop. -/
def dijkstraLoop (adj : Nat → List (Nat × Nat)) : Nat → DState → DState
  | 0, s => s
  | f + 1, s =>
    match s.queue with
    | [] => s
    | _ :: _ => dijkstraLoop adj f (dijkstraIter adj s)

/-- Initial state: all distances infinite except the source at `0`, no
predecessors, frontier seeded with `(0, start)`, no steps. -/
def dInit (start : Nat) : DState :=
  { dist := fun x => if x = start then some 0 else none
    prev := fun _ => none
    queue := [(0, start)]
    steps := [] }

/-- Fuel for the Dijkstra loop; proved sufficient below (the loop performs
at most one iteration per queue entry, and at most `1 + 2 * |edges|`
entries are ever pushed, each during the unique finalization of a node). -/
def dijkstraFuel (edges : List (Nat × Nat × Nat)) : Nat :=
  2 + 4 * edges.length

/-- `dijkstra_shortest_path_with_steps(nodes, edges, start_node)`.  The
parameter `n` is `len(nodes)`; in Python it only fixes the key set of the
distance and predecessor dictionaries, which are total functions here. -/
def dijkstraRun (n : Nat) (edges : List (Nat × Nat × Nat)) (start : Nat) :
    DState :=
  let _ := n
  dijkstraLoop (buildAdj edges) (dijkstraFuel edges) (dInit start)

/-- The backward walk of `reconstruct_path`: visit `end_node`, then follow
`previous_nodes` until the source or a `None` link, building the node list
oldest first.  `none` as a result marks fuel exhaustion (in Python the loop
would still be running). -/
def walkNodes (prev : Nat → Option Nat) (start : Nat) :
    Nat → Nat → Option (List Nat)
  | 0, _ => none
  | f + 1, cur =>
    if cur = start then some [cur]
    else
      match prev cur with
      | none => some [cur]
      | some nxt => (walkNodes prev start f nxt).map (fun l => l ++ [cur])

/-- `[(path[i], path[i+1]) for i in range(len(path) - 1)]`. -/
def pathPairs (l : List Nat) : List (Nat × Nat) := l.zip l.tail

/-- `reconstruct_path(previous_nodes, start_node, end_node)`: the edge list
when the walk reached the source, `[]` otherwise. -/
def reconstructPath (f : Nat) (prev : Nat → Option Nat)
    (start target : Nat) : Option (List (Nat × Nat)) :=
  (walkNodes prev start f target).map
    (fun p => if p.head? = some start then pathPairs p else [])

/-- `DEFAULT_FARM_EDGES` (lines 138-141 of the source). -/
def DEFAULT_FARM_EDGES : List (Nat × Nat × Nat) :=
  [(10, 0, 1), (15, 0, 3), (5, 1, 2), (25, 1, 3), (20, 2, 4), (12, 3, 4),
    (30, 0, 4)]

/-- `SetupPage.submit_data` (lines 289-304), the only input validation in
the repository: walk the entry rows in order, fail on the first negative
cost (`raise ValueError`, caught and shown as an error box, so the
simulation never starts and no events are produced), otherwise hand the
collected edge list to the engine.  Costs are modelled as integers, already
parsed. -/
def submitData : List ((Nat × Nat) × Int) → Except String (List (Int × Nat × Nat))
  | [] => Except.ok []
  | ((u, v), cost) :: rest =>
    if cost < 0 then Except.error "Cost must be non-negative."
    else (submitData rest).map (fun l => (cost, u, v) :: l)

/-- Sum of the weights on `Accept` events (the consumer fold the spec
describes for the MST total). -/
def acceptWeightSum (trace : List (Step Nat)) : Nat :=
  (trace.map (fun s => match s with | Step.accept w _ _ => w | _ => 0)).sum

/-- The `(weight, u, v)` triples of the `Accept` events, in trace order. -/
def acceptedEdges {α : Type} (trace : List (Step α)) : List (α × Nat × Nat) :=
  trace.filterMap
    (fun s => match s with | Step.accept w u v => some (w, u, v) | _ => none)

/-- A disjoint-set state whose parent chains admit compression: the result
of `union(0,1); union(2,3); union(0,2)` on four fresh singletons
(`parent = [0,0,0,2]`, `rank = [2,0,1,0]`). -/
def dsDemo : DS :=
  (dsUnion 4 ((dsUnion 4 ((dsUnion 4 (dsInit 4) 0 1).1) 2 3).1) 0 2).1

/-- The two events the Kruskal generator yields for one edge: `Check`,
then `Accept` or `Reject` according to the union verdict. -/
def edgeBlock {α : Type} (e : α × Nat × Nat) (b : Bool) : List (Step α) :=
  [Step.check e.1 e.2.1 e.2.2,
    if b then Step.accept e.1 e.2.1 e.2.2 else Step.reject e.1 e.2.1 e.2.2]

/-- The union verdicts of the Kruskal loop, edge by edge. -/
def kruskalVerdicts (n : Nat) : DS → List (α × Nat × Nat) → List Bool
  | _, [] => []
  | st, (_w, u, v) :: rest =>
    (dsUnion n st u v).2 :: kruskalVerdicts n (dsUnion n st u v).1 rest

/-- The nodes recorded by `Finalized` events, in order. -/
def finalizedNodes (steps : List (Step Nat)) : List Nat :=
  steps.filterMap
    (fun s => match s with | Step.finalized x => some x | _ => none)

/-- Walks from `start` in the adjacency structure, indexed by their total
weight; the reference notion of reachability and distance ("Bellman-Ford
relaxation to a fixed point" computes exactly the minima of these). -/
inductive Walk (adj : Nat → List (Nat × Nat)) (start : Nat) : Nat → Nat → Prop
  | nil : Walk adj start start 0
  | cons {u d w v : Nat} : Walk adj start u d → (w, v) ∈ adj u →
      Walk adj start v (d + w)

/-- The endpoints mentioned by an edge list. -/
def nodesFinset (edges : List (Nat × Nat × Nat)) : Finset Nat :=
  edges.foldr (fun e acc => insert e.2.1 (insert e.2.2 acc)) ∅

/-- All nodes the Dijkstra run can ever touch: the source plus every edge
endpoint. -/
def touchedSet (edges : List (Nat × Nat × Nat)) (start : Nat) : Finset Nat :=
  insert start (nodesFinset edges)

/-- Termination potential of a Dijkstra state: every iteration of the loop
strictly decreases it (a stale pop shortens the queue; a finalization pays
for all pushes it can cause out of its node's budget). -/
def pot (adj : Nat → List (Nat × Nat)) (T : Finset Nat) (s : DState) : Nat :=
  s.queue.length +
    (T.filter (fun x => x ∉ finalizedNodes s.steps)).sum
      (fun x => 1 + (adj x).length)

/-- Minimum of a list of naturals, `none` on the empty list. -/
def listMin : List Nat → Option Nat
  | [] => none
  | a :: l =>
    match listMin l with
    | none => some a
    | some m => some (min a m)

/-- The least weight the adjacency structure offers from `a` to `b` ("the
Graph's edge weight along `(a, b)`"; with parallel edges, the cheapest). -/
def wmin (adj : Nat → List (Nat × Nat)) (a b : Nat) : Option Nat :=
  listMin (((adj a).filter (fun e => e.2 = b)).map Prod.fst)

/-- Sum of the graph's edge weights along an edge sequence, `none` when a
pair is not an edge of the graph. -/
def sumMin (adj : Nat → List (Nat × Nat)) : List (Nat × Nat) → Option Nat
  | [] => some 0
  | q :: rest =>
    match wmin adj q.1 q.2, sumMin adj rest with
    | some w, some t => some (w + t)
    | _, _ => none

/-- `i`'s chain of parent links reaches the root `r` (the value
`DisjointSet.find` computes, independent of path compression). -/
inductive RootsTo (st : DS) : Nat → Nat → Prop
  | root {i : Nat} : st.parent i = i → RootsTo st i i
  | step {i r : Nat} : st.parent i ≠ i → RootsTo st (st.parent i) r →
      RootsTo st i r

/-- The representation invariant of a size-`n` disjoint set: parents stay
in range and ranks strictly increase along parent links (so chains are
acyclic and of length less than `n`). -/
def DSInv (n : Nat) (st : DS) : Prop :=
  (∀ i, i < n → st.parent i < n) ∧
    (∀ i, i < n → st.parent i ≠ i → st.rank i < st.rank (st.parent i))

/-- Chain measure: how many in-range nodes have strictly larger rank.  It
strictly decreases along parent links of a well-formed state. -/
def dsM (n : Nat) (st : DS) (i : Nat) : Nat :=
  ((Finset.range n).filter (fun j => st.rank i < st.rank j)).card

/-- Two nodes share a representative. -/
def sameRootP (st : DS) (x y : Nat) : Prop :=
  ∃ r, RootsTo st x r ∧ RootsTo st y r

/-- `x` and `y` are joined by some edge of the list (in either
direction). -/
def edgeAdj {α : Type} (edges : List (α × Nat × Nat)) (x y : Nat) : Prop :=
  ∃ e ∈ edges, (e.2.1 = x ∧ e.2.2 = y) ∨ (e.2.1 = y ∧ e.2.2 = x)

/-- Connectivity: the reflexive-transitive closure of edge adjacency (the
"connected components" of the graph). -/
def Conn {α : Type} (edges : List (α × Nat × Nat)) (x y : Nat) : Prop :=
  Relation.ReflTransGen (edgeAdj edges) x y

/-- The neighbors of `x` along the edge list. -/
def neighborsOf {α : Type} (edges : List (α × Nat × Nat)) (x : Nat) :
    Finset Nat :=
  edges.foldr
    (fun e acc =>
      ((if e.2.1 = x then {e.2.2} else ∅) ∪
        (if e.2.2 = x then {e.2.1} else ∅)) ∪ acc) ∅

/-- One breadth expansion of a node set. -/
def connStep {α : Type} (edges : List (α × Nat × Nat)) (S : Finset Nat) :
    Finset Nat :=
  S ∪ S.biUnion (fun x => neighborsOf edges x)

/-- Nodes reachable from `x` in at most `k` expansions. -/
def reachSet {α : Type} (edges : List (α × Nat × Nat)) (k x : Nat) :
    Finset Nat :=
  (connStep edges)^[k] {x}

/-- Canonical representative of `x`'s connected component: the least
in-range node reachable from `x` (computable). -/
def canonC {α : Type} (edges : List (α × Nat × Nat)) (n x : Nat) : Nat :=
  (listMin ((List.range n).filter
    (fun y => decide (y ∈ reachSet edges n x)))).getD x

/-- The number of connected components of the graph on nodes
`0, …, n-1`. -/
def numComponents {α : Type} (n : Nat) (edges : List (α × Nat × Nat)) :
    Nat :=
  ((Finset.range n).image (canonC edges n)).card

/-- Number of `Accept` events in a trace. -/
def acceptCount {α : Type} (trace : List (Step α)) : Nat :=
  trace.countP
    (fun s => match s with | Step.accept _ _ _ => true | _ => false)

/-- Number of disjoint-set roots among the first `n` nodes. -/
def rootsCard (n : Nat) (st : DS) : Nat :=
  ((Finset.range n).filter (fun x => st.parent x = x)).card

/-- The disjoint-set state after the Kruskal loop has processed a list of
edges. -/
def kruskalDS (n : Nat) : DS → List (α × Nat × Nat) → DS
  | st, [] => st
  | st, (_w, u, v) :: rest => kruskalDS n (dsUnion n st u v).1 rest

/-- The inductive invariant of the Dijkstra loop, over a finite universe
`T` of touchable nodes.  `F` abbreviates the finalized nodes of the step
trace. -/
structure DInv (adj : Nat → List (Nat × Nat)) (start : Nat) (T : Finset Nat)
    (s : DState) : Prop where
  sorted : s.queue.Pairwise pairLe
  entryDist : ∀ p ∈ s.queue, ∃ dx, s.dist p.2 = some dx ∧ dx ≤ p.1
  entryWalk : ∀ p ∈ s.queue, Walk adj start p.2 p.1
  distWalk : ∀ x dx, s.dist x = some dx → Walk adj start x dx
  relaxedOrQueued : ∀ x dx, s.dist x = some dx →
    (dx, x) ∈ s.queue ∨
      ∀ e ∈ adj x, ∃ dv, s.dist e.2 = some dv ∧ dv ≤ dx + e.1
  lowCount : ∀ x dx, s.dist x = some dx →
    s.queue.countP (fun q => q = (dx, x)) ≤ 1
  finalizedLt : ∀ x ∈ finalizedNodes s.steps, ∀ p ∈ s.queue, p.2 = x →
    ∃ dx, s.dist x = some dx ∧ dx < p.1
  finalizedMin : ∀ x ∈ finalizedNodes s.steps,
    ∃ dx, s.dist x = some dx ∧ ∀ p ∈ s.queue, dx ≤ p.1
  distFQ : ∀ x dx, s.dist x = some dx →
    x ∈ finalizedNodes s.steps ∨ (dx, x) ∈ s.queue
  prevSpec : ∀ v u0, s.prev v = some u0 →
    u0 ∈ finalizedNodes s.steps ∧
      ∃ w du, (w, v) ∈ adj u0 ∧ s.dist u0 = some du ∧
        s.dist v = some (du + w)
  distStart : s.dist start = some 0
  prevStart : s.prev start = none
  fNodup : (finalizedNodes s.steps).Nodup
  queueT : ∀ p ∈ s.queue, p.2 ∈ T
  fT : ∀ x ∈ finalizedNodes s.steps, x ∈ T

/-- The invariant holding throughout the neighbor-relaxation phase of one
finalization of `u`, popped with distance `d`.  `F0` is the finalized list
before this iteration. -/
structure RInv (adj : Nat → List (Nat × Nat)) (start : Nat) (T : Finset Nat)
    (d u : Nat) (F0 : List Nat) (s : DState) : Prop where
  stepsEq : finalizedNodes s.steps = F0 ++ [u]
  sorted : s.queue.Pairwise pairLe
  entryDist : ∀ p ∈ s.queue, ∃ dx, s.dist p.2 = some dx ∧ dx ≤ p.1
  entryWalk : ∀ p ∈ s.queue, Walk adj start p.2 p.1
  distWalk : ∀ x dx, s.dist x = some dx → Walk adj start x dx
  relaxedOrQueuedNe : ∀ x dx, x ≠ u → s.dist x = some dx →
    (dx, x) ∈ s.queue ∨
      ∀ e ∈ adj x, ∃ dv, s.dist e.2 = some dv ∧ dv ≤ dx + e.1
  distU : s.dist u = some d
  lowCount : ∀ x dx, s.dist x = some dx →
    s.queue.countP (fun q => q = (dx, x)) ≤ 1
  finalizedLt : ∀ x ∈ finalizedNodes s.steps, ∀ p ∈ s.queue, p.2 = x →
    ∃ dx, s.dist x = some dx ∧ dx < p.1
  fBound : ∀ x ∈ finalizedNodes s.steps, ∃ dx, s.dist x = some dx ∧ dx ≤ d
  finalizedMin : ∀ x ∈ finalizedNodes s.steps,
    ∃ dx, s.dist x = some dx ∧ ∀ p ∈ s.queue, dx ≤ p.1
  distFQ : ∀ x dx, s.dist x = some dx →
    x ∈ finalizedNodes s.steps ∨ (dx, x) ∈ s.queue
  prevSpec : ∀ v u0, s.prev v = some u0 →
    u0 ∈ finalizedNodes s.steps ∧
      ∃ w du, (w, v) ∈ adj u0 ∧ s.dist u0 = some du ∧
        s.dist v = some (du + w)
  distStart : s.dist start = some 0
  prevStart : s.prev start = none
  fNodup : (finalizedNodes s.steps).Nodup
  queueT : ∀ p ∈ s.queue, p.2 ∈ T
  fT : ∀ x ∈ finalizedNodes s.steps, x ∈ T

/-- C1.  On the default farm graph (5 nodes, edges
`[(10,0,1),(15,0,3),(5,1,2),(25,1,3),(20,2,4),(12,3,4),(30,0,4)]`, source
`0`) the Kruskal trace accepts exactly `(5,1,2),(10,0,1),(12,3,4),(15,0,3)`
with total weight `42`, and the Dijkstra run ends with distance `27` to
node `4`, predecessor links `4 ← 3 ← 0`, and the reconstructed path
`0 → 3 → 4`. -/
theorem c1_concrete_scenario :
    acceptWeightSum (kruskalTrace 5 DEFAULT_FARM_EDGES) = 42 ∧
    acceptedEdges (kruskalTrace 5 DEFAULT_FARM_EDGES) =
      [(5, 1, 2), (10, 0, 1), (12, 3, 4), (15, 0, 3)] ∧
    (dijkstraRun 5 DEFAULT_FARM_EDGES 0).dist 4 = some 27 ∧
    (dijkstraRun 5 DEFAULT_FARM_EDGES 0).prev 4 = some 3 ∧
    (dijkstraRun 5 DEFAULT_FARM_EDGES 0).prev 3 = some 0 ∧
    reconstructPath 5 (dijkstraRun 5 DEFAULT_FARM_EDGES 0).prev 0 4 =
      some [(0, 3), (3, 4)] := by
  refine ⟨by decide, by decide, by decide, by decide, by decide, by decide⟩

/-- C2 counterexample.  The engine performs no validation at all: fed the
edge list `[(-1, 0, 1)]` (one negative-weight edge, two nodes) directly,
the Kruskal generator raises nothing and happily emits two events — a
`Check` and an `Accept` — rather than zero. -/
theorem c2_counterexample :
    kruskalTrace 2 [((-1 : Int), 0, 1)] =
      [Step.check (-1) 0 1, Step.accept (-1) 0 1] ∧
    (kruskalTrace 2 [((-1 : Int), 0, 1)]).length ≠ 0 := by
  constructor
  · decide
  · decide

/-- C2 amended.  The only negative-weight check in the repository lives in
the presentation layer: `SetupPage.submit_data` raises `ValueError` on the
first negative cost, the handler shows an error box, and
`start_simulation` is never called, so the engine runs no algorithm and
zero events are produced. -/
theorem c2_negative_cost_fails_fast (rows : List ((Nat × Nat) × Int))
    (h : ∃ r ∈ rows, r.2 < 0) :
    submitData rows = Except.error "Cost must be non-negative." := by
  induction rows with
  | nil => simp at h
  | cons r rest ih =>
    obtain ⟨s, hs, hneg⟩ := h
    rcases r with ⟨⟨u, v⟩, cost⟩
    by_cases hc : cost < 0
    · simp [submitData, hc]
    · cases hs with
      | head => exact absurd hneg hc
      | tail _ hs2 => simp [submitData, hc, ih ⟨s, hs2, hneg⟩, Except.map]

/-- Witness for C2: a concrete negative row is rejected. -/
theorem c2_witness :
    (∃ r ∈ [((0, 1), (-1 : Int))], r.2 < 0) ∧
    submitData [((0, 1), (-1 : Int))] =
      Except.error "Cost must be non-negative." :=
  ⟨by decide, c2_negative_cost_fails_fast _ (by decide)⟩

/-- C6 counterexample.  `union(3, 1)` on `dsDemo` finds the shared
representative `0` and returns `false`, but it is not a structural no-op:
`find(3)`'s path compression rewrites `parent[3]` from `2` to `0`. -/
theorem c6_counterexample :
    (dsUnion 4 dsDemo 3 1).2 = false ∧
    dsDemo.parent 3 = 2 ∧
    (dsUnion 4 dsDemo 3 1).1.parent 3 = 0 := by
  refine ⟨by decide, by decide, by decide⟩

/-- C9.  The path reconstructor returns an empty edge sequence in both
boundary cases, and terminates normally (models "does not raise"): when
source equals target (any fuel covering the single iteration suffices),
and when the backward walk from the target runs along predecessor links
`cs = [target, ...]` that never meet the source and end at a node with a
`None` predecessor. -/
theorem c9_reconstruct_boundaries (prev : Nat → Option Nat)
    (start target : Nat) (f : Nat) :
    (1 ≤ f → reconstructPath f prev start start = some []) ∧
    (∀ cs : List Nat, ∀ z : Nat, cs.head? = some target →
      cs.getLast? = some z → List.Chain' (fun a b => prev a = some b) cs →
      prev z = none → start ∉ cs → cs.length ≤ f →
      reconstructPath f prev start target = some []) := by
  constructor
  · intro hf
    match f, hf with
    | g + 1, _ =>
      simp [reconstructPath, walkNodes, pathPairs]
  · intro cs z hhead hlast hchain hz hstart hlen
    have key : ∀ g : Nat, ∀ l : List Nat, ∀ t z0 : Nat,
        l.head? = some t → l.getLast? = some z0 →
        List.Chain' (fun a b => prev a = some b) l →
        prev z0 = none → start ∉ l → l.length ≤ g →
        ∃ p : List Nat, walkNodes prev start g t = some p ∧
          p.head? = some z0 ∧ z0 ≠ start := by
      intro g
      induction g with
      | zero =>
        intro l t z0 hh _ _ _ _ hl
        cases l with
        | nil => simp at hh
        | cons a l2 => simp at hl
      | succ g ih =>
        intro l t z0 hh hl hc hzn hs hlen2
        cases l with
        | nil => simp at hh
        | cons a l2 =>
          have hat : a = t := by simpa using hh
          subst hat
          have hastart : a ≠ start := by
            intro h; exact hs (h ▸ List.mem_cons_self a l2)
          cases l2 with
          | nil =>
            have haz : a = z0 := by simpa using hl
            subst haz
            refine ⟨[a], ?_, by simp, hastart⟩
            simp [walkNodes, hastart, hzn]
          | cons b l3 =>
            have hab : prev a = some b := (List.chain'_cons.mp hc).1
            have hl2 : (b :: l3).getLast? = some z0 := by
              simpa [List.getLast?_cons_cons] using hl
            have hc2 : List.Chain' (fun x y => prev x = some y) (b :: l3) :=
              (List.chain'_cons.mp hc).2
            have hs2 : start ∉ b :: l3 := fun h =>
              hs (List.mem_cons_of_mem a h)
            have hlen3 : (b :: l3).length ≤ g := by
              simpa [List.length_cons] using Nat.succ_le_succ_iff.mp hlen2
            obtain ⟨p, hp, hph, hpz⟩ :=
              ih (b :: l3) b z0 (by simp) hl2 hc2 hzn hs2 hlen3
            refine ⟨p ++ [a], ?_, ?_, hpz⟩
            · simp [walkNodes, hastart, hab, hp]
            · cases p with
              | nil => simp at hph
              | cons q p2 => simpa using hph
    obtain ⟨p, hp, hph, hpz⟩ := key f cs target z hhead hlast hchain hz hstart hlen
    have : p.head? ≠ some start := by
      rw [hph]; intro h
      exact hpz (by simpa using h)
    simp [reconstructPath, hp, this]

/-- Witness for C9 at concrete inputs: source-equals-target with fuel 1,
and a two-node dead-end chain `7 → 8` (predecessor of `8` is `None`) with
source `0`. -/
theorem c9_witness :
    reconstructPath 1 (fun x => if x = 7 then some 8 else none) 0 0 =
        some [] ∧
    reconstructPath 2 (fun x => if x = 7 then some 8 else none) 0 7 =
        some [] := by
  constructor
  · exact (c9_reconstruct_boundaries _ 0 0 1).1 (by decide)
  · exact (c9_reconstruct_boundaries _ 0 7 2).2 [7, 8] 8 (by simp)
      (by simp) (by simp [List.chain'_cons]) (by simp) (by simp) (by simp)

/-- C7.  Per-step behavior of a Dijkstra run.  A popped entry `(d, u)` with
`d` strictly greater than the recorded best distance of `u` is discarded
with no event and no other state change.  Each processed neighbor step with
candidate `d + w`: when the neighbor's best distance is a finite `dv`, it
relaxes (emits `Relaxed`, updates distance and predecessor, pushes the
frontier) exactly when `d + w < dv`, and otherwise — including the tie
`d + w = dv` — emits `CompareWorse` and changes nothing else; an infinite
best distance always relaxes. -/
theorem c7_step_behavior (adj : Nat → List (Nat × Nat)) (s : DState)
    (d u : Nat) (rest : List (Nat × Nat))
    (hq : s.queue = (d, u) :: rest) :
    (∀ du, s.dist u = some du → du < d →
      dijkstraIter adj s = { s with queue := rest }) ∧
    (∀ t : DState, ∀ w v : Nat,
      (∀ dv, t.dist v = some dv →
        (d + w < dv →
          relaxOne d u t (w, v) =
            { dist := fun x => if x = v then some (d + w) else t.dist x
              prev := fun x => if x = v then some u else t.prev x
              queue := qInsert (d + w, v) t.queue
              steps := t.steps ++ [Step.relaxed u v (d + w)] }) ∧
        (dv ≤ d + w →
          relaxOne d u t (w, v) =
            { t with steps := t.steps ++ [Step.compareWorse u v (d + w)] })) ∧
      (t.dist v = none →
        relaxOne d u t (w, v) =
          { dist := fun x => if x = v then some (d + w) else t.dist x
            prev := fun x => if x = v then some u else t.prev x
            queue := qInsert (d + w, v) t.queue
            steps := t.steps ++ [Step.relaxed u v (d + w)] })) := by
  constructor
  · intro du hdu hlt
    simp [dijkstraIter, hq, staleB, hdu, hlt]
  · intro t w v
    refine ⟨fun dv hdv => ⟨fun hlt => ?_, fun hge => ?_⟩, fun hnone => ?_⟩
    · simp [relaxOne, ltO, hdv, hlt]
    · simp [relaxOne, ltO, hdv, Nat.not_lt.mpr hge]
    · simp [relaxOne, ltO, hnone]

/-- Witness for C7 at a concrete state: queue `[(5, 1)]`, `dist 1 = some 3`
(so the pop is stale), and concrete neighbor relaxations. -/
theorem c7_witness :
    (dijkstraIter (fun _ => [])
        { dist := fun x => if x = 1 then some 3 else none
          prev := fun _ => none
          queue := [(5, 1)]
          steps := [] } =
      { dist := fun x => if x = 1 then some 3 else none
        prev := fun _ => none
        queue := []
        steps := [] }) ∧
    relaxOne 5 1 { dist := fun x => if x = 1 then some 3 else none
                   prev := fun _ => none
                   queue := []
                   steps := [] } (2, 1) =
      { dist := fun x => if x = 1 then some 3 else none
        prev := fun _ => none
        queue := []
        steps := [Step.compareWorse 1 1 7] } := by
  constructor
  · exact (c7_step_behavior (fun _ => [])
      { dist := fun x => if x = 1 then some 3 else none
        prev := fun _ => none
        queue := [(5, 1)]
        steps := [] } 5 1 [] rfl).1 3 rfl (by decide)
  · exact (((c7_step_behavior (fun _ => [])
      { dist := fun x => if x = 1 then some 3 else none
        prev := fun _ => none
        queue := [(5, 1)]
        steps := [] } 5 1 [] rfl).2
      { dist := fun x => if x = 1 then some 3 else none
        prev := fun _ => none
        queue := []
        steps := [] } 2 1).1 3 rfl).2 (by decide)

theorem kruskalVerdicts_length {α : Type} (n : Nat) (st : DS)
    (l : List (α × Nat × Nat)) : (kruskalVerdicts n st l).length = l.length := by
  induction l generalizing st with
  | nil => rfl
  | cons e rest ih =>
    rcases e with ⟨w, u, v⟩
    simp [kruskalVerdicts, ih]

theorem kruskalGo_eq_blocks {α : Type} (n : Nat) (st : DS)
    (l : List (α × Nat × Nat)) :
    kruskalGo n st l =
      (List.zipWith edgeBlock l (kruskalVerdicts n st l)).flatten := by
  induction l generalizing st with
  | nil => rfl
  | cons e rest ih =>
    rcases e with ⟨w, u, v⟩
    simp [kruskalGo, kruskalVerdicts, edgeBlock, ih]

theorem kruskalGo_length {α : Type} (n : Nat) (st : DS)
    (l : List (α × Nat × Nat)) : (kruskalGo n st l).length = 2 * l.length := by
  induction l generalizing st with
  | nil => rfl
  | cons e rest ih =>
    rcases e with ⟨w, u, v⟩
    simp [kruskalGo, ih]
    omega

/-- Stability of one ordered insertion, expressed through the equal-weight
filter: inserting `a` leaves every equal-weight fibre unchanged except that
`a` joins the front of its own fibre. -/
theorem filter_orderedInsert {α : Type} [LinearOrder α] (w : α)
    (a : α × Nat × Nat) (l : List (α × Nat × Nat)) :
    (List.orderedInsert (fun x y => x.1 ≤ y.1) a l).filter
        (fun e => e.1 = w) =
      if a.1 = w then a :: l.filter (fun e => e.1 = w)
      else l.filter (fun e => e.1 = w) := by
  induction l with
  | nil =>
    by_cases hw : a.1 = w <;> simp [List.orderedInsert, hw]
  | cons b l ih =>
    by_cases hab : a.1 ≤ b.1
    · rw [List.orderedInsert_of_le (fun x y : α × Nat × Nat => x.1 ≤ y.1) l
        hab]
      by_cases hw : a.1 = w <;> simp [hw]
    · have hstep : List.orderedInsert (fun x y => x.1 ≤ y.1) a (b :: l) =
          b :: List.orderedInsert (fun x y => x.1 ≤ y.1) a l := by
        simp [List.orderedInsert, hab]
      rw [hstep]
      have hba : b.1 < a.1 := lt_of_not_le hab
      by_cases hw : a.1 = w
      · have hbw : ¬ b.1 = w := by
          intro h; exact absurd (hw ▸ h ▸ hba) (lt_irrefl _)
        simp [List.filter_cons, hbw, ih, hw]
      · by_cases hbw : b.1 = w <;> simp [List.filter_cons, hbw, ih, hw]

/-- Stability of the whole sort: every equal-weight fibre of the sorted
edge list is the corresponding fibre of the input, in input order. -/
theorem sortEdges_stable {α : Type} [LinearOrder α] (w : α)
    (edges : List (α × Nat × Nat)) :
    (sortEdges edges).filter (fun e => e.1 = w) =
      edges.filter (fun e => e.1 = w) := by
  induction edges with
  | nil => rfl
  | cons e rest ih =>
    by_cases hw : e.1 = w <;>
      simp [sortEdges, List.insertionSort, filter_orderedInsert, hw,
        ← ih, sortEdges]

/-- C5.  The Kruskal generator visits the edges sorted by ascending weight
(`Sorted`, a permutation of the input), with ties preserving input order
(every equal-weight fibre is untouched), and its trace is exactly one
`Check` followed by one `Accept`-or-`Reject` block per sorted edge — so it
processes every edge, never stops early, and the trace has exactly
`2 * |edges|` events. -/
theorem c5_kruskal_trace_shape {α : Type} [LinearOrder α] (n : Nat)
    (edges : List (α × Nat × Nat)) :
    List.Sorted (fun a b => a.1 ≤ b.1) (sortEdges edges) ∧
    (sortEdges edges).Perm edges ∧
    (∀ w : α, (sortEdges edges).filter (fun e => e.1 = w) =
      edges.filter (fun e => e.1 = w)) ∧
    kruskalTrace n edges =
      (List.zipWith edgeBlock (sortEdges edges)
        (kruskalVerdicts n (dsInit n) (sortEdges edges))).flatten ∧
    (kruskalVerdicts n (dsInit n) (sortEdges edges)).length =
      (sortEdges edges).length ∧
    (kruskalTrace n edges).length = 2 * edges.length := by
  haveI h1 : IsTotal (α × Nat × Nat) (fun a b => a.1 ≤ b.1) :=
    ⟨fun a b => le_total a.1 b.1⟩
  haveI h2 : IsTrans (α × Nat × Nat) (fun a b => a.1 ≤ b.1) :=
    ⟨fun _ _ _ hab hbc => le_trans hab hbc⟩
  refine ⟨List.sorted_insertionSort _ _, List.perm_insertionSort _ _,
    fun w => sortEdges_stable w edges, kruskalGo_eq_blocks n _ _,
    kruskalVerdicts_length n _ _, ?_⟩
  rw [kruskalTrace, kruskalGo_length]
  exact congrArg (HMul.hMul 2)
    ((List.perm_insertionSort (fun a b : α × Nat × Nat => a.1 ≤ b.1)
      edges).length_eq)

theorem pairLe_total (a b : Nat × Nat) : pairLe a b ∨ pairLe b a := by
  unfold pairLe; omega

theorem pairLe_trans {a b c : Nat × Nat} (h1 : pairLe a b) (h2 : pairLe b c) :
    pairLe a c := by
  unfold pairLe at h1 h2 ⊢; omega

theorem pairLe_fst {a b : Nat × Nat} (h : pairLe a b) : a.1 ≤ b.1 := by
  unfold pairLe at h; omega

theorem qInsert_perm (p : Nat × Nat) (l : List (Nat × Nat)) :
    List.Perm (qInsert p l) (p :: l) := by
  induction l with
  | nil => rfl
  | cons q rest ih =>
    by_cases h : pairLe p q
    · simp [qInsert, h]
    · simp only [qInsert, if_neg h]
      exact (ih.cons q).trans (List.Perm.swap p q rest)

theorem mem_qInsert {x p : Nat × Nat} {l : List (Nat × Nat)} :
    x ∈ qInsert p l ↔ x = p ∨ x ∈ l := by
  rw [(qInsert_perm p l).mem_iff, List.mem_cons]

theorem countP_qInsert (pr : Nat × Nat → Bool) (p : Nat × Nat)
    (l : List (Nat × Nat)) :
    (qInsert p l).countP pr = (p :: l).countP pr :=
  (qInsert_perm p l).countP_eq pr

theorem qInsert_sorted (p : Nat × Nat) {l : List (Nat × Nat)}
    (h : l.Pairwise pairLe) : (qInsert p l).Pairwise pairLe := by
  induction l with
  | nil => simp [qInsert]
  | cons q rest ih =>
    rcases List.pairwise_cons.mp h with ⟨hq, hrest⟩
    by_cases hpq : pairLe p q
    · rw [qInsert, if_pos hpq]
      exact List.pairwise_cons.mpr
        ⟨fun b hb => by
          rcases List.mem_cons.mp hb with rfl | hb2
          · exact hpq
          · exact pairLe_trans hpq (hq b hb2),
          h⟩
    · rw [qInsert, if_neg hpq]
      have hqp : pairLe q p := (pairLe_total p q).resolve_left hpq
      exact List.pairwise_cons.mpr
        ⟨fun b hb => by
          rcases mem_qInsert.mp hb with rfl | hb2
          · exact hqp
          · exact hq b hb2,
          ih hrest⟩

theorem qInsert_length (p : Nat × Nat) (l : List (Nat × Nat)) :
    (qInsert p l).length = l.length + 1 := by
  simpa using (qInsert_perm p l).length_eq

theorem finalizedNodes_append (l1 l2 : List (Step Nat)) :
    finalizedNodes (l1 ++ l2) = finalizedNodes l1 ++ finalizedNodes l2 := by
  simp [finalizedNodes]

theorem finalizedNodes_finalized (u : Nat) :
    finalizedNodes [Step.finalized u] = [u] := rfl

theorem finalizedNodes_relaxed (u v c : Nat) :
    finalizedNodes [Step.relaxed u v c] = [] := rfl

theorem finalizedNodes_compareWorse (u v c : Nat) :
    finalizedNodes [Step.compareWorse u v c] = [] := rfl

theorem finalizedNodes_cons_check (w a b : Nat) (l : List (Step Nat)) :
    finalizedNodes (Step.check w a b :: l) = finalizedNodes l := rfl

theorem finalizedNodes_cons_accept (w a b : Nat) (l : List (Step Nat)) :
    finalizedNodes (Step.accept w a b :: l) = finalizedNodes l := rfl

theorem finalizedNodes_cons_reject (w a b : Nat) (l : List (Step Nat)) :
    finalizedNodes (Step.reject w a b :: l) = finalizedNodes l := rfl

theorem finalizedNodes_cons_relaxed (a b c : Nat) (l : List (Step Nat)) :
    finalizedNodes (Step.relaxed a b c :: l) = finalizedNodes l := rfl

theorem finalizedNodes_cons_compareWorse (a b c : Nat) (l : List (Step Nat)) :
    finalizedNodes (Step.compareWorse a b c :: l) = finalizedNodes l := rfl

theorem finalizedNodes_cons_finalized (x : Nat) (l : List (Step Nat)) :
    finalizedNodes (Step.finalized x :: l) = x :: finalizedNodes l := rfl

theorem mem_finalizedNodes {v : Nat} {l : List (Step Nat)} :
    v ∈ finalizedNodes l ↔ Step.finalized v ∈ l := by
  induction l with
  | nil => simp [finalizedNodes]
  | cons s rest ih =>
    cases s with
    | check w a b => simp [finalizedNodes_cons_check, ih]
    | accept w a b => simp [finalizedNodes_cons_accept, ih]
    | reject w a b => simp [finalizedNodes_cons_reject, ih]
    | relaxed a b c => simp [finalizedNodes_cons_relaxed, ih]
    | compareWorse a b c => simp [finalizedNodes_cons_compareWorse, ih]
    | finalized x =>
      rw [finalizedNodes_cons_finalized]
      simp [ih, eq_comm]

theorem relaxOne_dist_mono (d u : Nat) (s : DState) (e : Nat × Nat)
    {x dx : Nat} (h : s.dist x = some dx) :
    ∃ dx2, (relaxOne d u s e).dist x = some dx2 ∧ dx2 ≤ dx := by
  unfold relaxOne
  by_cases hlt : ltO (d + e.1) (s.dist e.2)
  · simp only [hlt, if_pos]
    by_cases hx : x = e.2
    · subst hx
      refine ⟨d + e.1, by simp, ?_⟩
      rw [h] at hlt
      exact Nat.le_of_lt (by simpa [ltO] using hlt)
    · exact ⟨dx, by simp [hx, h], le_refl dx⟩
  · simp only [hlt, if_neg, Bool.not_eq_true]
    exact ⟨dx, by simpa using h, le_refl dx⟩

theorem relaxList_dist_mono (d u : Nat) :
    ∀ (l : List (Nat × Nat)) (s : DState) {x dx : Nat},
      s.dist x = some dx →
      ∃ dx2, (relaxList d u s l).dist x = some dx2 ∧ dx2 ≤ dx := by
  intro l
  induction l with
  | nil => intro s x dx h; exact ⟨dx, h, le_refl dx⟩
  | cons e rest ih =>
    intro s x dx h
    obtain ⟨d1, h1, hle1⟩ := relaxOne_dist_mono d u s e h
    obtain ⟨d2, h2, hle2⟩ := ih (relaxOne d u s e) h1
    exact ⟨d2, h2, le_trans hle2 hle1⟩

theorem relaxOne_queue_len (d u : Nat) (s : DState) (e : Nat × Nat) :
    (relaxOne d u s e).queue.length ≤ s.queue.length + 1 := by
  unfold relaxOne
  by_cases hlt : ltO (d + e.1) (s.dist e.2) <;>
    simp [hlt, qInsert_length]

theorem relaxList_queue_len (d u : Nat) :
    ∀ (l : List (Nat × Nat)) (s : DState),
      (relaxList d u s l).queue.length ≤ s.queue.length + l.length := by
  intro l
  induction l with
  | nil => intro s; simp [relaxList]
  | cons e rest ih =>
    intro s
    calc (relaxList d u (relaxOne d u s e) rest).queue.length
        ≤ (relaxOne d u s e).queue.length + rest.length := ih _
      _ ≤ s.queue.length + 1 + rest.length :=
          Nat.add_le_add_right (relaxOne_queue_len d u s e) _
      _ = s.queue.length + (e :: rest).length := by simp; omega

/-- Appending an event that is not `Finalized` preserves the relaxation
invariant (the queue, distances and predecessors are untouched). -/
theorem RInv_append_nonfinal {adj : Nat → List (Nat × Nat)} {start : Nat}
    {T : Finset Nat} {d u : Nat} {F0 : List Nat} {s : DState}
    (h : RInv adj start T d u F0 s) (ev : Step Nat)
    (hev : finalizedNodes [ev] = []) :
    RInv adj start T d u F0 { s with steps := s.steps ++ [ev] } := by
  have hF : finalizedNodes (s.steps ++ [ev]) = finalizedNodes s.steps := by
    rw [finalizedNodes_append, hev, List.append_nil]
  refine ⟨?_, h.sorted, h.entryDist, h.entryWalk, h.distWalk,
    h.relaxedOrQueuedNe, h.distU, h.lowCount, ?_, ?_, ?_, ?_, ?_,
    h.distStart, h.prevStart, ?_, h.queueT, ?_⟩
  · show finalizedNodes (s.steps ++ [ev]) = F0 ++ [u]
    rw [hF, h.stepsEq]
  · intro x hx
    exact h.finalizedLt x (hF ▸ hx)
  · intro x hx
    exact h.fBound x (hF ▸ hx)
  · intro x hx
    exact h.finalizedMin x (hF ▸ hx)
  · intro x dx hdx
    rcases h.distFQ x dx hdx with hm | hm
    · exact Or.inl (hF.symm ▸ hm)
    · exact Or.inr hm
  · intro v0 u0 hprev
    obtain ⟨hu0, rest⟩ := h.prevSpec v0 u0 hprev
    exact ⟨hF.symm ▸ hu0, rest⟩
  · show (finalizedNodes (s.steps ++ [ev])).Nodup
    rw [hF]; exact h.fNodup
  · intro x hx
    exact h.fT x (hF ▸ hx)

/-- One neighbor step preserves the relaxation invariant and leaves the
processed neighbor's distance at most `d + w`. -/
theorem relaxOne_RInv {adj : Nat → List (Nat × Nat)} {start : Nat}
    {T : Finset Nat} {d u : Nat} {F0 : List Nat} {s : DState}
    (hT : ∀ u0 : Nat, ∀ p ∈ adj u0, (p : Nat × Nat).2 ∈ T)
    {e : Nat × Nat} (he : e ∈ adj u)
    (h : RInv adj start T d u F0 s) :
    RInv adj start T d u F0 (relaxOne d u s e) ∧
      ∃ dv, (relaxOne d u s e).dist e.2 = some dv ∧ dv ≤ d + e.1 := by
  rcases e with ⟨w, v⟩
  by_cases hlt : ltO (d + w) (s.dist v) = true
  case neg =>
    rw [Bool.not_eq_true] at hlt
    obtain ⟨dv, hdv, hge⟩ : ∃ dv, s.dist v = some dv ∧ dv ≤ d + w := by
      cases hdvm : s.dist v with
      | none => rw [hdvm] at hlt; simp [ltO] at hlt
      | some dv =>
        rw [hdvm] at hlt
        exact ⟨dv, rfl, by simpa [ltO] using hlt⟩
    have hres : relaxOne d u s (w, v) =
        { s with steps := s.steps ++ [Step.compareWorse u v (d + w)] } := by
      simp [relaxOne, hlt]
    rw [hres]
    exact ⟨RInv_append_nonfinal h _ (finalizedNodes_compareWorse u v (d + w)),
      dv, hdv, hge⟩
  case pos =>
    have hvdist : ∀ dv0, s.dist v = some dv0 → d + w < dv0 := by
      intro dv0 hdv0
      rw [hdv0] at hlt
      simpa [ltO] using hlt
    have hvu : v ≠ u := by
      intro hvu
      have := hvdist d (hvu ▸ h.distU)
      omega
    have hvstart : v ≠ start := by
      intro hvs
      have := hvdist 0 (hvs ▸ h.distStart)
      omega
    have hvF : v ∉ finalizedNodes s.steps := by
      intro hvF
      obtain ⟨dv0, hdv0, hbd⟩ := h.fBound v hvF
      have := hvdist dv0 hdv0
      omega
    have hUinF : u ∈ finalizedNodes s.steps := by
      rw [h.stepsEq]; simp
    have hwalkV : Walk adj start v (d + w) :=
      Walk.cons (h.distWalk u d h.distU) he
    have hres : relaxOne d u s (w, v) =
        { dist := fun x => if x = v then some (d + w) else s.dist x
          prev := fun x => if x = v then some u else s.prev x
          queue := qInsert (d + w, v) s.queue
          steps := s.steps ++ [Step.relaxed u v (d + w)] } := by
      simp [relaxOne, hlt]
    rw [hres]
    have hF : finalizedNodes (s.steps ++ [Step.relaxed u v (d + w)]) =
        finalizedNodes s.steps := by
      rw [finalizedNodes_append, finalizedNodes_relaxed, List.append_nil]
    refine ⟨⟨?_, qInsert_sorted _ h.sorted, ?_, ?_, ?_, ?_, ?_, ?_, ?_, ?_,
      ?_, ?_, ?_, ?_, ?_, ?_, ?_, ?_⟩, d + w, by simp, le_refl _⟩
    · show finalizedNodes (s.steps ++ [Step.relaxed u v (d + w)]) = F0 ++ [u]
      rw [hF, h.stepsEq]
    · -- entryDist
      intro p hp
      rcases mem_qInsert.mp hp with rfl | hp2
      · exact ⟨d + w, by simp, le_refl _⟩
      · obtain ⟨dx, hdx, hle⟩ := h.entryDist p hp2
        by_cases hpv : p.2 = v
        · have hc := hvdist dx (hpv ▸ hdx)
          exact ⟨d + w, by simp [hpv], by omega⟩
        · exact ⟨dx, by simp [hpv, hdx], hle⟩
    · -- entryWalk
      intro p hp
      rcases mem_qInsert.mp hp with rfl | hp2
      · exact hwalkV
      · exact h.entryWalk p hp2
    · -- distWalk
      intro x dx hdx
      by_cases hx : x = v
      · subst hx
        have : some (d + w) = some dx := by simpa using hdx
        exact (Option.some_injective _ this) ▸ hwalkV
      · exact h.distWalk x dx (by simpa [hx] using hdx)
    · -- relaxedOrQueuedNe
      intro x dx hxu hdx
      by_cases hx : x = v
      · subst hx
        have : some (d + w) = some dx := by simpa using hdx
        have hdxc : dx = d + w := (Option.some_injective _ this).symm
        subst hdxc
        exact Or.inl (mem_qInsert.mpr (Or.inl rfl))
      · have hdx2 : s.dist x = some dx := by simpa [hx] using hdx
        rcases h.relaxedOrQueuedNe x dx hxu hdx2 with hmem | hall
        · exact Or.inl (mem_qInsert.mpr (Or.inr hmem))
        · refine Or.inr (fun e2 he2 => ?_)
          obtain ⟨dv2, hdv2, hle2⟩ := hall e2 he2
          by_cases hev : e2.2 = v
          · have hc := hvdist dv2 (hev ▸ hdv2)
            exact ⟨d + w, by simp [hev], by omega⟩
          · exact ⟨dv2, by simp [hev, hdv2], hle2⟩
    · -- distU
      show (if u = v then some (d + w) else s.dist u) = some d
      rw [if_neg (fun h2 => hvu h2.symm), h.distU]
    · -- lowCount
      intro x dx hdx
      rw [countP_qInsert, List.countP_cons]
      by_cases hx : x = v
      · have hdxc : dx = d + w := by
          rw [hx] at hdx
          simp at hdx
          omega
        rw [hx, hdxc]
        have hzero : s.queue.countP (fun q => decide (q = (d + w, v))) = 0 := by
          rw [List.countP_eq_zero]
          intro q hq
          simp only [decide_eq_true_eq]
          intro hqe
          obtain ⟨dv0, hdv0, hle0⟩ := h.entryDist q hq
          rw [hqe] at hdv0 hle0
          simp at hdv0 hle0
          have := hvdist dv0 hdv0
          omega
        simp [hzero]
      · have hdx2 : s.dist x = some dx := by simpa [hx] using hdx
        have hne : ¬ ((d + w, v) = (dx, x)) := by
          intro h2
          injection h2 with h3 h4
          exact hx h4.symm
        have hc := h.lowCount x dx hdx2
        simpa [hne] using hc
    · -- finalizedLt
      intro x hx p hp hpx
      have hx2 : x ∈ finalizedNodes s.steps := hF ▸ hx
      have hxv : x ≠ v := fun h2 => hvF (h2 ▸ hx2)
      rcases mem_qInsert.mp hp with rfl | hp2
      · exact absurd hpx.symm hxv
      · obtain ⟨dx0, hdx0, hlt0⟩ := h.finalizedLt x hx2 p hp2 hpx
        exact ⟨dx0, by simp [hxv, hdx0], hlt0⟩
    · -- fBound
      intro x hx
      have hx2 : x ∈ finalizedNodes s.steps := hF ▸ hx
      have hxv : x ≠ v := fun h2 => hvF (h2 ▸ hx2)
      obtain ⟨dx0, hdx0, hb⟩ := h.fBound x hx2
      exact ⟨dx0, by simp [hxv, hdx0], hb⟩
    · -- finalizedMin
      intro x hx
      have hx2 : x ∈ finalizedNodes s.steps := hF ▸ hx
      have hxv : x ≠ v := fun h2 => hvF (h2 ▸ hx2)
      obtain ⟨dx0, hdx0, hb⟩ := h.finalizedMin x hx2
      obtain ⟨dx1, hdx1, hbd⟩ := h.fBound x hx2
      have hdx01 : dx0 = dx1 := by
        rw [hdx0] at hdx1
        exact Option.some_injective _ hdx1
      refine ⟨dx0, by simp [hxv, hdx0], ?_⟩
      intro p hp
      rcases mem_qInsert.mp hp with rfl | hp2
      · show dx0 ≤ d + w
        omega
      · exact hb p hp2
    · -- distFQ
      intro x dx hdx
      by_cases hx : x = v
      · subst hx
        have : some (d + w) = some dx := by simpa using hdx
        have hdxc : dx = d + w := (Option.some_injective _ this).symm
        subst hdxc
        exact Or.inr (mem_qInsert.mpr (Or.inl rfl))
      · have hdx2 : s.dist x = some dx := by simpa [hx] using hdx
        rcases h.distFQ x dx hdx2 with hm | hm
        · exact Or.inl (hF.symm ▸ hm)
        · exact Or.inr (mem_qInsert.mpr (Or.inr hm))
    · -- prevSpec
      intro v0 u0 hprev
      by_cases hv0 : v0 = v
      · have hu0 : u0 = u := by
          rw [hv0] at hprev
          simp at hprev
          omega
        refine ⟨?_, w, d, ?_, ?_, ?_⟩
        · rw [hu0]; exact hF.symm ▸ hUinF
        · rw [hv0, hu0]; exact he
        · rw [hu0]
          show (if u = v then some (d + w) else s.dist u) = some d
          rw [if_neg (fun h2 => hvu h2.symm), h.distU]
        · rw [hv0]; simp
      · have hprev2 : s.prev v0 = some u0 := by simpa [hv0] using hprev
        obtain ⟨hu0F, w0, du0, hadj0, hdu0, hdv0⟩ := h.prevSpec v0 u0 hprev2
        have hu0v : u0 ≠ v := fun h2 => hvF (h2 ▸ hu0F)
        exact ⟨hF.symm ▸ hu0F, w0, du0, hadj0, by simp [hu0v, hdu0],
          by simp [hv0, hdv0]⟩
    · -- distStart
      show (if start = v then some (d + w) else s.dist start) = some 0
      rw [if_neg (fun h2 => hvstart h2.symm), h.distStart]
    · -- prevStart
      show (if start = v then some u else s.prev start) = none
      rw [if_neg (fun h2 => hvstart h2.symm), h.prevStart]
    · -- fNodup
      show (finalizedNodes (s.steps ++ [Step.relaxed u v (d + w)])).Nodup
      rw [hF]; exact h.fNodup
    · -- queueT
      intro p hp
      rcases mem_qInsert.mp hp with rfl | hp2
      · exact hT u (w, v) he
      · exact h.queueT p hp2
    · -- fT
      intro x hx
      exact h.fT x (hF ▸ hx)

/-- The whole neighbor loop preserves the relaxation invariant, and every
processed neighbor ends with distance at most `d + w`. -/
theorem relaxList_RInv {adj : Nat → List (Nat × Nat)} {start : Nat}
    {T : Finset Nat} {d u : Nat} {F0 : List Nat}
    (hT : ∀ u0 : Nat, ∀ p ∈ adj u0, (p : Nat × Nat).2 ∈ T) :
    ∀ (l : List (Nat × Nat)) (s : DState), (∀ e ∈ l, e ∈ adj u) →
      RInv adj start T d u F0 s →
      RInv adj start T d u F0 (relaxList d u s l) ∧
        ∀ e ∈ l, ∃ dv,
          (relaxList d u s l).dist e.2 = some dv ∧ dv ≤ d + e.1 := by
  intro l
  induction l with
  | nil =>
    intro s _ h
    exact ⟨h, by simp⟩
  | cons e rest ih =>
    intro s hmem h
    obtain ⟨h1, dv1, hdv1, hle1⟩ :=
      relaxOne_RInv hT (hmem e (List.mem_cons_self e rest)) h
    obtain ⟨h2, hrest⟩ :=
      ih (relaxOne d u s e) (fun e2 he2 => hmem e2 (List.mem_cons_of_mem e he2))
        h1
    refine ⟨h2, ?_⟩
    intro e2 he2
    rcases List.mem_cons.mp he2 with rfl | he3
    · obtain ⟨dv2, hdv2, hle2⟩ :=
        relaxList_dist_mono d u rest (relaxOne d u s e2) hdv1
      exact ⟨dv2, hdv2, le_trans hle2 hle1⟩
    · exact hrest e2 he3

/-- One loop iteration preserves the invariant and strictly decreases the
potential. -/
theorem dijkstraIter_DInv {adj : Nat → List (Nat × Nat)} {start : Nat}
    {T : Finset Nat} {s : DState}
    (hT : ∀ u0 : Nat, ∀ p ∈ adj u0, (p : Nat × Nat).2 ∈ T)
    (h : DInv adj start T s) (hne : s.queue ≠ []) :
    DInv adj start T (dijkstraIter adj s) ∧
      pot adj T (dijkstraIter adj s) < pot adj T s := by
  obtain ⟨⟨d, u⟩, rest, hq⟩ : ∃ p rest, s.queue = p :: rest := by
    cases hqe : s.queue with
    | nil => exact absurd hqe hne
    | cons p rest => exact ⟨p, rest, rfl⟩
  have hlen : s.queue.length = rest.length + 1 := by rw [hq]; rfl
  have hhead : (d, u) ∈ s.queue := by
    rw [hq]; exact List.mem_cons_self _ _
  by_cases hstale : staleB (s.dist u) d = true
  case pos =>
    have hiter : dijkstraIter adj s = { s with queue := rest } := by
      simp [dijkstraIter, hq, hstale]
    obtain ⟨du, hdu, hlt⟩ : ∃ du, s.dist u = some du ∧ du < d := by
      cases hdm : s.dist u with
      | none => rw [hdm] at hstale; simp [staleB] at hstale
      | some du =>
        rw [hdm] at hstale
        exact ⟨du, rfl, by simpa [staleB] using hstale⟩
    rw [hiter]
    constructor
    · refine ⟨?_, ?_, ?_, h.distWalk, ?_, ?_, ?_, ?_, ?_, h.prevSpec,
        h.distStart, h.prevStart, h.fNodup, ?_, h.fT⟩
      · exact (hq ▸ h.sorted).of_cons
      · intro p hp
        exact h.entryDist p (by rw [hq]; exact List.mem_cons_of_mem _ hp)
      · intro p hp
        exact h.entryWalk p (by rw [hq]; exact List.mem_cons_of_mem _ hp)
      · intro x dx hdx
        rcases h.relaxedOrQueued x dx hdx with hm | hall
        · rw [hq] at hm
          rcases List.mem_cons.mp hm with heq | hm2
          · exfalso
            simp only [Prod.mk.injEq] at heq
            obtain ⟨hd1, hx1⟩ := heq
            rw [hx1, hdu] at hdx
            have : du = dx := Option.some_injective _ hdx
            omega
          · exact Or.inl hm2
        · exact Or.inr hall
      · intro x dx hdx
        have hc := h.lowCount x dx hdx
        rw [hq, List.countP_cons] at hc
        dsimp only
        omega
      · intro x hx p hp hpx
        exact h.finalizedLt x hx p
          (by rw [hq]; exact List.mem_cons_of_mem _ hp) hpx
      · intro x hx
        obtain ⟨dx, hdx, hb⟩ := h.finalizedMin x hx
        exact ⟨dx, hdx,
          fun p hp => hb p (by rw [hq]; exact List.mem_cons_of_mem _ hp)⟩
      · intro x dx hdx
        rcases h.distFQ x dx hdx with hm | hm
        · exact Or.inl hm
        · rw [hq] at hm
          rcases List.mem_cons.mp hm with heq | hm2
          · exfalso
            simp only [Prod.mk.injEq] at heq
            obtain ⟨hd1, hx1⟩ := heq
            rw [hx1, hdu] at hdx
            have : du = dx := Option.some_injective _ hdx
            omega
          · exact Or.inr hm2
      · intro p hp
        exact h.queueT p (by rw [hq]; exact List.mem_cons_of_mem _ hp)
    · show pot adj T { s with queue := rest } < pot adj T s
      unfold pot
      rw [hlen]
      dsimp only
      omega
  case neg =>
    rw [Bool.not_eq_true] at hstale
    obtain ⟨du, hdu, hdule⟩ := h.entryDist (d, u) hhead
    have hdud : du = d := by
      rw [hdu] at hstale
      simp [staleB] at hstale
      omega
    rw [hdud] at hdu
    have huF : u ∉ finalizedNodes s.steps := by
      intro huF
      obtain ⟨dx, hdx, hxlt⟩ := h.finalizedLt u huF (d, u) hhead rfl
      rw [hdu] at hdx
      have : d = dx := Option.some_injective _ hdx
      omega
    have huT : u ∈ T := h.queueT (d, u) hhead
    have hnotin : ¬ (d, u) ∈ rest := by
      intro hmem
      have hc := h.lowCount u d hdu
      rw [hq, List.countP_cons] at hc
      have hif :
          (if (fun q => decide (q = (d, u))) ((d, u) : Nat × Nat) = true
            then 1 else 0) = 1 := by simp
      rw [hif] at hc
      have hpos : 0 < rest.countP (fun q => decide (q = (d, u))) :=
        List.countP_pos_iff.mpr ⟨(d, u), hmem, by simp⟩
      omega
    have hsorted_rest : ∀ p ∈ rest, pairLe (d, u) p := by
      intro p hp
      have hs2 := hq ▸ h.sorted
      exact (List.pairwise_cons.mp hs2).1 p hp
    have hR : RInv adj start T d u (finalizedNodes s.steps)
        { s with queue := rest, steps := s.steps ++ [Step.finalized u] } := by
      refine ⟨?_, ?_, ?_, ?_, h.distWalk, ?_, hdu, ?_, ?_, ?_, ?_, ?_, ?_,
        h.distStart, h.prevStart, ?_, ?_, ?_⟩
      · show finalizedNodes (s.steps ++ [Step.finalized u]) =
          finalizedNodes s.steps ++ [u]
        rw [finalizedNodes_append, finalizedNodes_finalized]
      · exact (hq ▸ h.sorted).of_cons
      · intro p hp
        exact h.entryDist p (by rw [hq]; exact List.mem_cons_of_mem _ hp)
      · intro p hp
        exact h.entryWalk p (by rw [hq]; exact List.mem_cons_of_mem _ hp)
      · intro x dx hxu hdx
        rcases h.relaxedOrQueued x dx hdx with hm | hall
        · rw [hq] at hm
          rcases List.mem_cons.mp hm with heq | hm2
          · exfalso
            simp only [Prod.mk.injEq] at heq
            exact hxu heq.2
          · exact Or.inl hm2
        · exact Or.inr hall
      · intro x dx hdx
        have hc := h.lowCount x dx hdx
        rw [hq, List.countP_cons] at hc
        dsimp only
        omega
      · intro x hx p hp hpx
        rw [finalizedNodes_append, finalizedNodes_finalized] at hx
        rcases List.mem_append.mp hx with hx0 | hxu
        · exact h.finalizedLt x hx0 p
            (by rw [hq]; exact List.mem_cons_of_mem _ hp) hpx
        · have hxu2 : x = u := by simpa using hxu
          refine ⟨d, by rw [hxu2]; exact hdu, ?_⟩
          have hle := pairLe_fst (hsorted_rest p hp)
          rcases Nat.lt_or_ge d p.1 with hl | hg
          · exact hl
          · exfalso
            have hpd : p.1 = d := by omega
            have hpe : p = (d, u) := by
              rcases p with ⟨p1, p2⟩
              simp only at hpd hpx
              rw [Prod.mk.injEq]
              exact ⟨hpd, by rw [hpx, hxu2]⟩
            exact hnotin (hpe ▸ hp)
      · intro x hx
        rw [finalizedNodes_append, finalizedNodes_finalized] at hx
        rcases List.mem_append.mp hx with hx0 | hxu
        · obtain ⟨dx, hdx, hb⟩ := h.finalizedMin x hx0
          exact ⟨dx, hdx, hb (d, u) hhead⟩
        · have hxu2 : x = u := by simpa using hxu
          exact ⟨d, by rw [hxu2]; exact hdu, le_refl d⟩
      · intro x hx
        rw [finalizedNodes_append, finalizedNodes_finalized] at hx
        rcases List.mem_append.mp hx with hx0 | hxu
        · obtain ⟨dx, hdx, hb⟩ := h.finalizedMin x hx0
          exact ⟨dx, hdx,
            fun p hp => hb p (by rw [hq]; exact List.mem_cons_of_mem _ hp)⟩
        · have hxu2 : x = u := by simpa using hxu
          refine ⟨d, by rw [hxu2]; exact hdu, ?_⟩
          intro p hp
          exact pairLe_fst (hsorted_rest p hp)
      · intro x dx hdx
        rcases h.distFQ x dx hdx with hm | hm
        · exact Or.inl
            (by rw [finalizedNodes_append, finalizedNodes_finalized]
                exact List.mem_append_left _ hm)
        · rw [hq] at hm
          rcases List.mem_cons.mp hm with heq | hm2
          · simp only [Prod.mk.injEq] at heq
            exact Or.inl
              (by rw [finalizedNodes_append, finalizedNodes_finalized, heq.2]
                  simp)
          · exact Or.inr hm2
      · intro v0 u0 hprev
        obtain ⟨hu0, rest0⟩ := h.prevSpec v0 u0 hprev
        refine ⟨?_, rest0⟩
        rw [finalizedNodes_append, finalizedNodes_finalized]
        exact List.mem_append_left _ hu0
      · show (finalizedNodes (s.steps ++ [Step.finalized u])).Nodup
        rw [finalizedNodes_append, finalizedNodes_finalized]
        simp [List.nodup_append, h.fNodup, huF]
      · intro p hp
        exact h.queueT p (by rw [hq]; exact List.mem_cons_of_mem _ hp)
      · intro x hx
        rw [finalizedNodes_append, finalizedNodes_finalized] at hx
        rcases List.mem_append.mp hx with hx0 | hxu
        · exact h.fT x hx0
        · have hxu2 : x = u := by simpa using hxu
          rw [hxu2]; exact huT
    obtain ⟨hR2, hconcl⟩ :=
      relaxList_RInv hT (adj u)
        { s with queue := rest, steps := s.steps ++ [Step.finalized u] }
        (fun e he => he) hR
    have hiter : dijkstraIter adj s =
        relaxList d u
          { s with queue := rest, steps := s.steps ++ [Step.finalized u] }
          (adj u) := by
      simp [dijkstraIter, hq, hstale]
    rw [hiter]
    constructor
    · refine ⟨hR2.sorted, hR2.entryDist, hR2.entryWalk, hR2.distWalk, ?_,
        hR2.lowCount, hR2.finalizedLt, hR2.finalizedMin, hR2.distFQ,
        hR2.prevSpec, hR2.distStart, hR2.prevStart, hR2.fNodup, hR2.queueT,
        hR2.fT⟩
      intro x dx hdx
      by_cases hx : x = u
      · refine Or.inr ?_
        rw [hx]
        intro e he
        have hdxd : dx = d := by
          rw [hx] at hdx
          rw [hR2.distU] at hdx
          exact (Option.some_injective _ hdx).symm
        rw [hdxd]
        exact hconcl e he
      · exact hR2.relaxedOrQueuedNe x dx hx hdx
    · have hql := relaxList_queue_len d u (adj u)
        { s with queue := rest, steps := s.steps ++ [Step.finalized u] }
      dsimp only at hql
      have hfil :
          T.filter (fun x =>
            x ∉ finalizedNodes (relaxList d u
              { s with queue := rest,
                       steps := s.steps ++ [Step.finalized u] }
              (adj u)).steps) =
          (T.filter (fun x => x ∉ finalizedNodes s.steps)).erase u := by
        ext x
        simp only [hR2.stepsEq, Finset.mem_erase, Finset.mem_filter,
          List.mem_append, List.mem_singleton]
        constructor
        · rintro ⟨hxT, hxn⟩
          push_neg at hxn
          exact ⟨hxn.2, hxT, hxn.1⟩
        · rintro ⟨hxu, hxT, hxn⟩
          exact ⟨hxT, by push_neg; exact ⟨hxn, hxu⟩⟩
      have huA : u ∈ T.filter (fun x => x ∉ finalizedNodes s.steps) :=
        Finset.mem_filter.mpr ⟨huT, by simpa using huF⟩
      have hsum :
          ((T.filter (fun x => x ∉ finalizedNodes s.steps)).erase u).sum
              (fun x => 1 + (adj x).length) + (1 + (adj u).length) =
            (T.filter (fun x => x ∉ finalizedNodes s.steps)).sum
              (fun x => 1 + (adj x).length) := by
        simpa using Finset.sum_erase_add
          (T.filter (fun x => x ∉ finalizedNodes s.steps))
          (fun x => 1 + (adj x).length) huA
      show pot adj T _ < pot adj T s
      unfold pot
      rw [hfil, hlen, ← hsum]
      omega

/-- With enough fuel (at least the potential) the loop drains the queue
and the invariant holds at the end. -/
theorem dijkstraLoop_DInv {adj : Nat → List (Nat × Nat)} {start : Nat}
    {T : Finset Nat}
    (hT : ∀ u0 : Nat, ∀ p ∈ adj u0, (p : Nat × Nat).2 ∈ T) :
    ∀ (k : Nat) (s : DState), DInv adj start T s → pot adj T s ≤ k →
      (dijkstraLoop adj k s).queue = [] ∧
        DInv adj start T (dijkstraLoop adj k s) := by
  intro k
  induction k with
  | zero =>
    intro s h hpot
    have hl : s.queue.length = 0 := by
      unfold pot at hpot
      omega
    have hq : s.queue = [] := List.eq_nil_of_length_eq_zero hl
    exact ⟨hq, h⟩
  | succ k ih =>
    intro s h hpot
    cases hq : s.queue with
    | nil =>
      have hid : dijkstraLoop adj (k + 1) s = s := by
        simp [dijkstraLoop, hq]
      rw [hid]
      exact ⟨hq, h⟩
    | cons p rest =>
      have hne : s.queue ≠ [] := by rw [hq]; simp
      obtain ⟨h2, hdec⟩ := dijkstraIter_DInv hT h hne
      have hstep : dijkstraLoop adj (k + 1) s =
          dijkstraLoop adj k (dijkstraIter adj s) := by
        simp [dijkstraLoop, hq]
      rw [hstep]
      exact ih (dijkstraIter adj s) h2 (by omega)

/-- The nodes mentioned by the edge list, unfolded. -/
theorem mem_nodesFinset {edges : List (Nat × Nat × Nat)} {x : Nat} :
    x ∈ nodesFinset edges ↔ ∃ e ∈ edges, x = e.2.1 ∨ x = e.2.2 := by
  induction edges with
  | nil => simp [nodesFinset]
  | cons e rest ih =>
    show x ∈ insert e.2.1 (insert e.2.2 (nodesFinset rest)) ↔ _
    rw [Finset.mem_insert, Finset.mem_insert, ih]
    constructor
    · rintro (h | h | ⟨e2, he2, h2⟩)
      · exact ⟨e, List.mem_cons_self e rest, Or.inl h⟩
      · exact ⟨e, List.mem_cons_self e rest, Or.inr h⟩
      · exact ⟨e2, List.mem_cons_of_mem e he2, h2⟩
    · rintro ⟨e2, he2, h2⟩
      rcases List.mem_cons.mp he2 with rfl | he3
      · rcases h2 with h2 | h2
        · exact Or.inl h2
        · exact Or.inr (Or.inl h2)
      · exact Or.inr (Or.inr ⟨e2, he3, h2⟩)

theorem edge_ends_touched {edges : List (Nat × Nat × Nat)} {start : Nat} :
    ∀ e ∈ edges, e.2.1 ∈ touchedSet edges start ∧
      e.2.2 ∈ touchedSet edges start := by
  intro e he
  constructor
  · exact Finset.mem_insert_of_mem (mem_nodesFinset.mpr ⟨e, he, Or.inl rfl⟩)
  · exact Finset.mem_insert_of_mem (mem_nodesFinset.mpr ⟨e, he, Or.inr rfl⟩)

theorem adjStep_mem {f : Nat → List (Nat × Nat)} {e : Nat × Nat × Nat}
    {x : Nat} {p : Nat × Nat} (h : p ∈ adjStep f e x) :
    p ∈ f x ∨ p = (e.1, e.2.2) ∨ p = (e.1, e.2.1) := by
  unfold adjStep at h
  rcases List.mem_append.mp h with hg | hl
  · by_cases h1 : x = e.2.1
    · rw [if_pos h1] at hg
      rcases List.mem_append.mp hg with hf | hl2
      · exact Or.inl hf
      · exact Or.inr (Or.inl (by simpa using hl2))
    · rw [if_neg h1] at hg
      exact Or.inl hg
  · by_cases h2 : x = e.2.2
    · rw [if_pos h2] at hl
      exact Or.inr (Or.inr (by simpa using hl))
    · rw [if_neg h2] at hl
      simp at hl

theorem adjStep_length (f : Nat → List (Nat × Nat)) (e : Nat × Nat × Nat)
    (x : Nat) :
    (adjStep f e x).length =
      (f x).length + ((if x = e.2.1 then 1 else 0) +
        (if x = e.2.2 then 1 else 0)) := by
  unfold adjStep
  rw [List.length_append]
  by_cases h1 : x = e.2.1 <;> by_cases h2 : x = e.2.2
  · rw [if_pos h1, if_pos h2, if_pos h1, if_pos h2]; simp
  · rw [if_pos h1, if_neg h2, if_pos h1, if_neg h2]; simp
  · rw [if_neg h1, if_pos h2, if_neg h1, if_pos h2]; simp
  · rw [if_neg h1, if_neg h2, if_neg h1, if_neg h2]; simp

theorem foldl_adjStep_mem (T : Finset Nat) :
    ∀ (l : List (Nat × Nat × Nat)) (f : Nat → List (Nat × Nat)),
      (∀ u0 : Nat, ∀ p ∈ f u0, (p : Nat × Nat).2 ∈ T) →
      (∀ e ∈ l, e.2.1 ∈ T ∧ e.2.2 ∈ T) →
      ∀ u0 : Nat, ∀ p ∈ l.foldl adjStep f u0, (p : Nat × Nat).2 ∈ T := by
  intro l
  induction l with
  | nil =>
    intro f hf _ u0 p hp
    exact hf u0 p hp
  | cons e rest ih =>
    intro f hf he u0 p hp
    refine ih (adjStep f e) ?_
      (fun e2 h2 => he e2 (List.mem_cons_of_mem e h2)) u0 p hp
    intro u1 p1 hp1
    rcases adjStep_mem hp1 with hm | hm | hm
    · exact hf u1 p1 hm
    · rw [hm]
      exact (he e (List.mem_cons_self e rest)).2
    · rw [hm]
      exact (he e (List.mem_cons_self e rest)).1

theorem buildAdj_mem_touched (edges : List (Nat × Nat × Nat)) (start : Nat) :
    ∀ u0 : Nat, ∀ p ∈ buildAdj edges u0,
      (p : Nat × Nat).2 ∈ touchedSet edges start :=
  foldl_adjStep_mem (touchedSet edges start) edges (fun _ => [])
    (by simp) edge_ends_touched

theorem foldl_adjStep_sum (S : Finset Nat) :
    ∀ (l : List (Nat × Nat × Nat)) (f : Nat → List (Nat × Nat)),
      (∀ e ∈ l, e.2.1 ∈ S ∧ e.2.2 ∈ S) →
      S.sum (fun x => (l.foldl adjStep f x).length) =
        S.sum (fun x => (f x).length) + 2 * l.length := by
  intro l
  induction l with
  | nil => intro f _; simp
  | cons e rest ih =>
    intro f he
    rw [List.foldl_cons,
      ih (adjStep f e) (fun e2 h2 => he e2 (List.mem_cons_of_mem e h2))]
    have hstep : S.sum (fun x => (adjStep f e x).length) =
        S.sum (fun x => (f x).length) + 2 := by
      rw [Finset.sum_congr rfl (fun x _ => adjStep_length f e x),
        Finset.sum_add_distrib, Finset.sum_add_distrib]
      have h1 : (S.sum fun x => if x = e.2.1 then 1 else 0) = 1 := by
        rw [Finset.sum_ite_eq' S e.2.1 (fun _ => 1),
          if_pos (he e (List.mem_cons_self e rest)).1]
      have h2 : (S.sum fun x => if x = e.2.2 then 1 else 0) = 1 := by
        rw [Finset.sum_ite_eq' S e.2.2 (fun _ => 1),
          if_pos (he e (List.mem_cons_self e rest)).2]
      omega
    rw [hstep]
    simp
    omega

theorem card_nodesFinset_le (edges : List (Nat × Nat × Nat)) :
    (nodesFinset edges).card ≤ 2 * edges.length := by
  induction edges with
  | nil => simp [nodesFinset]
  | cons e rest ih =>
    show (insert e.2.1 (insert e.2.2 (nodesFinset rest))).card ≤ _
    have h1 := Finset.card_insert_le e.2.1 (insert e.2.2 (nodesFinset rest))
    have h2 := Finset.card_insert_le e.2.2 (nodesFinset rest)
    simp only [List.length_cons]
    omega

/-- The initial state satisfies the invariant. -/
theorem dInit_DInv (edges : List (Nat × Nat × Nat)) (start : Nat) :
    DInv (buildAdj edges) start (touchedSet edges start) (dInit start) := by
  refine ⟨?_, ?_, ?_, ?_, ?_, ?_, ?_, ?_, ?_, ?_, ?_, ?_, ?_, ?_, ?_⟩
  · simp [dInit]
  · intro p hp
    have hp2 : p = (0, start) := by simpa [dInit] using hp
    rw [hp2]
    exact ⟨0, by simp [dInit], le_refl 0⟩
  · intro p hp
    have hp2 : p = (0, start) := by simpa [dInit] using hp
    rw [hp2]
    exact Walk.nil
  · intro x dx hdx
    by_cases hx : x = start
    · have h0 : dx = 0 := by
        rw [hx] at hdx
        simpa [dInit] using hdx.symm
      rw [hx, h0]
      exact Walk.nil
    · simp [dInit, hx] at hdx
  · intro x dx hdx
    by_cases hx : x = start
    · refine Or.inl ?_
      have h0 : dx = 0 := by
        rw [hx] at hdx
        simpa [dInit] using hdx.symm
      rw [hx, h0]
      simp [dInit]
    · simp [dInit, hx] at hdx
  · intro x dx hdx
    simp [dInit, List.countP_cons]
    split_ifs <;> simp
  · intro x hx
    simp [dInit, finalizedNodes] at hx
  · intro x hx
    simp [dInit, finalizedNodes] at hx
  · intro x dx hdx
    by_cases hx : x = start
    · refine Or.inr ?_
      have h0 : dx = 0 := by
        rw [hx] at hdx
        simpa [dInit] using hdx.symm
      rw [hx, h0]
      simp [dInit]
    · simp [dInit, hx] at hdx
  · intro v0 u0 hprev
    simp [dInit] at hprev
  · simp [dInit]
  · simp [dInit]
  · simp [dInit, finalizedNodes]
  · intro p hp
    have hp2 : p = (0, start) := by simpa [dInit] using hp
    rw [hp2]
    exact Finset.mem_insert_self start _
  · intro x hx
    simp [dInit, finalizedNodes] at hx

/-- The chosen fuel dominates the initial potential. -/
theorem pot_init_le (edges : List (Nat × Nat × Nat)) (start : Nat) :
    pot (buildAdj edges) (touchedSet edges start) (dInit start) ≤
      dijkstraFuel edges := by
  have hsum : (touchedSet edges start).sum
      (fun x => (buildAdj edges x).length) = 2 * edges.length := by
    have := foldl_adjStep_sum (touchedSet edges start) edges (fun _ => [])
      edge_ends_touched
    simpa [buildAdj] using this
  have hcard : (touchedSet edges start).card ≤ 1 + 2 * edges.length := by
    have h1 := Finset.card_insert_le start (nodesFinset edges)
    have h2 := card_nodesFinset_le edges
    unfold touchedSet
    omega
  unfold pot dijkstraFuel
  have hfil : (touchedSet edges start).filter
      (fun x => x ∉ finalizedNodes (dInit start).steps) =
        touchedSet edges start := by
    apply Finset.filter_true_of_mem
    intro x _
    simp [dInit, finalizedNodes]
  rw [hfil]
  have hq1 : (dInit start).queue.length = 1 := by simp [dInit]
  rw [hq1, Finset.sum_add_distrib]
  simp only [Finset.sum_const, smul_eq_mul, mul_one]
  omega

/-- The completed Dijkstra run: empty queue, invariant established. -/
theorem dijkstraRun_final (n : Nat) (edges : List (Nat × Nat × Nat))
    (start : Nat) :
    DInv (buildAdj edges) start (touchedSet edges start)
        (dijkstraRun n edges start) ∧
      (dijkstraRun n edges start).queue = [] := by
  have h := dijkstraLoop_DInv (buildAdj_mem_touched edges start)
    (dijkstraFuel edges) (dInit start) (dInit_DInv edges start)
    (pot_init_le edges start)
  exact ⟨h.2, h.1⟩

/-- At a drained queue, every node with a finite distance has a distance
that is at most every walk bound: the distance table is a relaxation fixed
point reached from the source. -/
theorem DInv_final_upper {adj : Nat → List (Nat × Nat)} {start : Nat}
    {T : Finset Nat} {s : DState} (h : DInv adj start T s)
    (hq : s.queue = []) :
    ∀ v L, Walk adj start v L → ∃ dv, s.dist v = some dv ∧ dv ≤ L := by
  intro v L hw
  induction hw with
  | nil => exact ⟨0, h.distStart, le_refl 0⟩
  | cons hw2 he ih =>
    obtain ⟨du, hdu, hle⟩ := ih
    rcases h.relaxedOrQueued _ du hdu with hm | hall
    · rw [hq] at hm
      simp at hm
    · obtain ⟨dv, hdv, hle2⟩ := hall _ he
      exact ⟨dv, hdv, by omega⟩

/-- C3.  For every valid graph and source, the final Distance Table of the
Dijkstra run assigns to each node reachable from the source exactly the
true shortest-path distance — the least walk weight, i.e. the value of
Bellman-Ford relaxation at its fixed point: the returned value is a walk
weight and a lower bound of all walk weights.  Every unreachable node
retains infinite distance (`none`), a `None` predecessor, and appears in
no `Finalized` event. -/
theorem c3_dijkstra_distances (n : Nat) (edges : List (Nat × Nat × Nat))
    (start : Nat) (hs : start < n)
    (hv : ∀ e ∈ edges, e.2.1 < n ∧ e.2.2 < n) :
    ∀ v : Nat,
      (∀ L, Walk (buildAdj edges) start v L →
        ∃ m, (dijkstraRun n edges start).dist v = some m ∧ m ≤ L ∧
          Walk (buildAdj edges) start v m) ∧
      ((∀ L, ¬ Walk (buildAdj edges) start v L) →
        (dijkstraRun n edges start).dist v = none ∧
          (dijkstraRun n edges start).prev v = none ∧
          Step.finalized v ∉ (dijkstraRun n edges start).steps) := by
  obtain ⟨hD, hq⟩ := dijkstraRun_final n edges start
  intro v
  constructor
  · intro L hwL
    obtain ⟨m, hm, hle⟩ := DInv_final_upper hD hq v L hwL
    exact ⟨m, hm, hle, hD.distWalk v m hm⟩
  · intro hnw
    have hdist : (dijkstraRun n edges start).dist v = none := by
      cases hd : (dijkstraRun n edges start).dist v with
      | none => rfl
      | some dv => exact absurd (hD.distWalk v dv hd) (hnw dv)
    refine ⟨hdist, ?_, ?_⟩
    · cases hp : (dijkstraRun n edges start).prev v with
      | none => rfl
      | some u0 =>
        obtain ⟨_, w0, du0, _, _, hdv0⟩ := hD.prevSpec v u0 hp
        rw [hdist] at hdv0
        exact absurd hdv0 (by simp)
    · intro hf
      have hvF : v ∈ finalizedNodes (dijkstraRun n edges start).steps :=
        mem_finalizedNodes.mpr hf
      obtain ⟨dx, hdx, _⟩ := hD.finalizedMin v hvF
      rw [hdist] at hdx
      exact absurd hdx (by simp)

/-- Witness for C3 at a concrete graph: with two nodes and no edges, node
`1` is unreachable from source `0` and ends with infinite distance, no
predecessor, and no `Finalized` event. -/
theorem c3_witness :
    (0 < 2 ∧ ∀ e ∈ ([] : List (Nat × Nat × Nat)), e.2.1 < 2 ∧ e.2.2 < 2) ∧
    ((dijkstraRun 2 [] 0).dist 1 = none ∧
      (dijkstraRun 2 [] 0).prev 1 = none ∧
      Step.finalized 1 ∉ (dijkstraRun 2 [] 0).steps) :=
  ⟨⟨by decide, by simp⟩,
    (c3_dijkstra_distances 2 [] 0 (by decide) (by simp) 1).2
      (by
        intro L hw
        cases hw with
        | cons hw2 he => exact absurd he (by simp [buildAdj]))⟩

/-- C10.  In every Dijkstra run on a valid graph, the `Finalized` events
name pairwise distinct nodes (no node is finalized twice), and a node is
finalized exactly when it is reachable from the source. -/
theorem c10_finalized_once (n : Nat) (edges : List (Nat × Nat × Nat))
    (start : Nat) (hs : start < n)
    (hv : ∀ e ∈ edges, e.2.1 < n ∧ e.2.2 < n) :
    (finalizedNodes (dijkstraRun n edges start).steps).Nodup ∧
    ∀ v : Nat, (Step.finalized v ∈ (dijkstraRun n edges start).steps ↔
      ∃ L, Walk (buildAdj edges) start v L) := by
  obtain ⟨hD, hq⟩ := dijkstraRun_final n edges start
  refine ⟨hD.fNodup, fun v => ⟨?_, ?_⟩⟩
  · intro hf
    obtain ⟨dx, hdx, _⟩ := hD.finalizedMin v (mem_finalizedNodes.mpr hf)
    exact ⟨dx, hD.distWalk v dx hdx⟩
  · rintro ⟨L, hw⟩
    obtain ⟨m, hm, _⟩ := DInv_final_upper hD hq v L hw
    rcases hD.distFQ v m hm with hf | hmem
    · exact mem_finalizedNodes.mp hf
    · rw [hq] at hmem
      simp at hmem

/-- Witness for C10 at the default farm graph: distinct finalizations, and
node `4` is finalized since it is reachable. -/
theorem c10_witness :
    (finalizedNodes (dijkstraRun 5 DEFAULT_FARM_EDGES 0).steps).Nodup ∧
    (Step.finalized 4 ∈ (dijkstraRun 5 DEFAULT_FARM_EDGES 0).steps ↔
      ∃ L, Walk (buildAdj DEFAULT_FARM_EDGES) 0 4 L) :=
  ⟨(c10_finalized_once 5 DEFAULT_FARM_EDGES 0 (by decide) (by decide)).1,
    (c10_finalized_once 5 DEFAULT_FARM_EDGES 0 (by decide) (by decide)).2 4⟩

theorem listMin_eq_none {l : List Nat} : listMin l = none ↔ l = [] := by
  cases l with
  | nil => simp [listMin]
  | cons a l2 =>
    simp only [listMin]
    cases listMin l2 <;> simp

theorem listMin_mem : ∀ {l : List Nat} {m : Nat}, listMin l = some m → m ∈ l := by
  intro l
  induction l with
  | nil => intro m h; simp [listMin] at h
  | cons a l2 ih =>
    intro m h
    rw [listMin] at h
    cases hm : listMin l2 with
    | none =>
      rw [hm] at h
      have : a = m := by simpa using h
      rw [← this]
      exact List.mem_cons_self a l2
    | some m2 =>
      rw [hm] at h
      have hmin : min a m2 = m := by simpa using h
      rcases Nat.le_total a m2 with hle | hle
      · rw [Nat.min_eq_left hle] at hmin
        rw [← hmin]
        exact List.mem_cons_self a l2
      · rw [Nat.min_eq_right hle] at hmin
        rw [← hmin]
        exact List.mem_cons_of_mem a (ih hm)

theorem listMin_le : ∀ {l : List Nat} {m : Nat}, listMin l = some m →
    ∀ y ∈ l, m ≤ y := by
  intro l
  induction l with
  | nil => intro m _ y hy; simp at hy
  | cons a l2 ih =>
    intro m h y hy
    rw [listMin] at h
    cases hm : listMin l2 with
    | none =>
      rw [hm] at h
      have hl2 : l2 = [] := listMin_eq_none.mp hm
      have ha : a = m := by simpa using h
      rcases List.mem_cons.mp hy with rfl | hy2
      · omega
      · rw [hl2] at hy2; simp at hy2
    | some m2 =>
      rw [hm] at h
      have hmin : min a m2 = m := by simpa using h
      rcases List.mem_cons.mp hy with rfl | hy2
      · omega
      · have := ih hm y hy2
        omega

theorem listMin_spec {l : List Nat} {w : Nat} (hmem : w ∈ l)
    (hall : ∀ y ∈ l, w ≤ y) : listMin l = some w := by
  cases hm : listMin l with
  | none =>
    rw [listMin_eq_none.mp hm] at hmem
    simp at hmem
  | some m =>
    have h1 : m ≤ w := listMin_le hm w hmem
    have h2 : w ≤ m := hall m (listMin_mem hm)
    rw [Nat.le_antisymm h1 h2]

/-- The reconstruction walk yields a nonempty node list ending at the
target whose consecutive pairs follow the predecessor links backwards. -/
theorem walkNodes_chain (prev : Nat → Option Nat) (start : Nat) :
    ∀ (f t : Nat) (p : List Nat), walkNodes prev start f t = some p →
      p ≠ [] ∧ p.getLast? = some t ∧
        List.Chain' (fun a b => prev b = some a) p := by
  intro f
  induction f with
  | zero => intro t p h; simp [walkNodes] at h
  | succ f ih =>
    intro t p h
    rw [walkNodes] at h
    by_cases ht : t = start
    · rw [if_pos ht] at h
      have hp : [t] = p := by simpa using h
      rw [← hp]
      exact ⟨by simp, by simp, by simp⟩
    · rw [if_neg ht] at h
      cases hp : prev t with
      | none =>
        rw [hp] at h
        have hp2 : [t] = p := by simpa using h
        rw [← hp2]
        exact ⟨by simp, by simp, by simp⟩
      | some nxt =>
        rw [hp] at h
        dsimp only at h
        cases hw : walkNodes prev start f nxt with
        | none => rw [hw] at h; simp at h
        | some p2 =>
          rw [hw] at h
          have hp2 : p2 ++ [t] = p := by simpa using h
          obtain ⟨hne2, hlast2, hchain2⟩ := ih nxt p2 hw
          rw [← hp2]
          refine ⟨by simp, by simp, ?_⟩
          rw [List.chain'_append]
          refine ⟨hchain2, by simp, ?_⟩
          intro x hx y hy
          have hyt : t = y := by simpa using hy
          have hxn : x = nxt := by
            rw [Option.mem_def, hlast2] at hx
            exact (Option.some_injective _ hx).symm
          rw [← hyt, hxn]
          exact hp

/-- Telescoping along the predecessor chain in the final state: the sum of
cheapest edge weights along the chain equals the distance difference of
its endpoints. -/
theorem pathSum_telescope {adj : Nat → List (Nat × Nat)} {start : Nat}
    {T : Finset Nat} {s : DState} (h : DInv adj start T s)
    (hq : s.queue = []) :
    ∀ (p : List Nat) (a da : Nat), p.head? = some a → s.dist a = some da →
      List.Chain' (fun x y => s.prev y = some x) p →
      ∃ z dz, p.getLast? = some z ∧ s.dist z = some dz ∧ da ≤ dz ∧
        sumMin adj (pathPairs p) = some (dz - da) := by
  intro p
  induction p with
  | nil => intro a da h1 _ _; simp at h1
  | cons b p2 ih =>
    intro a da hhead hda hchain
    have hab : b = a := by simpa using hhead
    cases p2 with
    | nil =>
      refine ⟨b, da, by simp, by rw [hab]; exact hda, le_refl da, ?_⟩
      simp [pathPairs, sumMin]
    | cons c p3 =>
      have hbc : s.prev c = some b := (List.chain'_cons.mp hchain).1
      obtain ⟨hbF, w, du, hadjw, hdub, hdc⟩ := h.prevSpec c b hbc
      have hdua : du = da := by
        rw [hab, hda] at hdub
        exact (Option.some_injective _ hdub).symm
      have hwmin : wmin adj a c = some w := by
        apply listMin_spec
        · apply List.mem_map.mpr
          refine ⟨(w, c), ?_, rfl⟩
          apply List.mem_filter.mpr
          exact ⟨by rw [← hab]; exact hadjw, by simp⟩
        · intro y hy
          obtain ⟨e2, he2, hye⟩ := List.mem_map.mp hy
          have he3 := List.mem_filter.mp he2
          have he2c : e2.2 = c := by simpa using he3.2
          rcases h.relaxedOrQueued b du hdub with hm | hall
          · rw [hq] at hm; simp at hm
          · obtain ⟨dv2, hdv2, hle2⟩ := hall e2 (by rw [hab]; exact he3.1)
            rw [he2c, hdc] at hdv2
            have : du + w = dv2 := Option.some_injective _ hdv2
            rw [← hye]
            omega
      obtain ⟨z, dz, hlast, hdz, hle, hsum⟩ :=
        ih c (du + w) (by simp) hdc (List.chain'_cons.mp hchain).2
      refine ⟨z, dz, by rw [List.getLast?_cons_cons]; exact hlast, hdz, ?_, ?_⟩
      · omega
      · have hpairs : pathPairs (b :: c :: p3) =
            (b, c) :: pathPairs (c :: p3) := rfl
        rw [hpairs]
        show (match wmin adj b c, sumMin adj (pathPairs (c :: p3)) with
          | some w0, some t => some (w0 + t)
          | _, _ => none) = some (dz - da)
        rw [hab, hwmin, hsum]
        dsimp only
        have harith : w + (dz - (du + w)) = dz - da := by omega
        rw [harith]

/-- C8.  Round trip: whenever the path reconstructor returns a non-empty
edge sequence from the predecessor map of a completed Dijkstra run, the
sum of the graph's (cheapest) edge weights along that sequence equals the
final Distance Table value of the target. -/
theorem c8_path_roundtrip (n : Nat) (edges : List (Nat × Nat × Nat))
    (start target f : Nat) (hs : start < n)
    (hv : ∀ e ∈ edges, e.2.1 < n ∧ e.2.2 < n) (E : List (Nat × Nat))
    (hE : reconstructPath f (dijkstraRun n edges start).prev start target =
      some E) (hne : E ≠ []) :
    sumMin (buildAdj edges) E = (dijkstraRun n edges start).dist target := by
  obtain ⟨hD, hq⟩ := dijkstraRun_final n edges start
  unfold reconstructPath at hE
  cases hw : walkNodes (dijkstraRun n edges start).prev start f target with
  | none => rw [hw] at hE; simp at hE
  | some p =>
    rw [hw] at hE
    have hE2 : (if p.head? = some start then pathPairs p else []) = E := by
      simpa using hE
    by_cases hh : p.head? = some start
    case neg =>
      rw [if_neg hh] at hE2
      exact absurd hE2.symm hne
    case pos =>
      rw [if_pos hh] at hE2
      obtain ⟨hpne, hlast, hchain⟩ := walkNodes_chain _ _ f target p hw
      obtain ⟨z, dz, hlast2, hdz, hle, hsum⟩ :=
        pathSum_telescope hD hq p start 0 hh hD.distStart hchain
      have hz : z = target := by
        rw [hlast] at hlast2
        exact Option.some_injective _ hlast2.symm
      rw [← hE2, hsum, ← hz, hdz]
      simp

/-- Witness for C8 at the default farm graph: the reconstructed route
`0 → 3 → 4` weighs `15 + 12 = 27`, the final distance of node `4`. -/
theorem c8_witness :
    sumMin (buildAdj DEFAULT_FARM_EDGES) [(0, 3), (3, 4)] =
      (dijkstraRun 5 DEFAULT_FARM_EDGES 0).dist 4 :=
  c8_path_roundtrip 5 DEFAULT_FARM_EDGES 0 4 5 (by decide) (by decide)
    [(0, 3), (3, 4)] (by decide) (by decide)

theorem RootsTo_unique {st : DS} {x r1 r2 : Nat} (h1 : RootsTo st x r1)
    (h2 : RootsTo st x r2) : r1 = r2 := by
  induction h1 with
  | root hroot =>
    cases h2 with
    | root _ => rfl
    | step hne _ => exact absurd hroot hne
  | step hne _ ih =>
    cases h2 with
    | root hroot => exact absurd hroot hne
    | step _ h2rec => exact ih h2rec

theorem RootsTo_isRoot {st : DS} {x r : Nat} (h : RootsTo st x r) :
    st.parent r = r := by
  induction h with
  | root hroot => exact hroot
  | step _ _ ih => exact ih

theorem RootsTo_of_root {st : DS} {x r : Nat} (hx : st.parent x = x)
    (h : RootsTo st x r) : r = x := by
  cases h with
  | root _ => rfl
  | step hne _ => exact absurd hx hne

theorem RootsTo_parent_congr {st st2 : DS}
    (hp : ∀ x, st.parent x = st2.parent x) {x r : Nat}
    (h : RootsTo st x r) : RootsTo st2 x r := by
  induction h with
  | root hroot => exact RootsTo.root (by rw [← hp]; exact hroot)
  | step hne _ ih =>
    exact RootsTo.step (by rw [← hp]; exact hne) (by rw [← hp]; exact ih)

theorem RootsTo_lt {n : Nat} {st : DS} (h : DSInv n st) {x r : Nat}
    (hx : x < n) (hr : RootsTo st x r) : r < n := by
  induction hr with
  | root _ => exact hx
  | step hne hrec ih => exact ih (h.1 _ hx)

theorem RootsTo_rank_le {n : Nat} {st : DS} (h : DSInv n st) {x r : Nat}
    (hx : x < n) (hr : RootsTo st x r) : st.rank x ≤ st.rank r := by
  induction hr with
  | root _ => exact le_refl _
  | step hne hrec ih =>
    have h1 := h.2 _ hx hne
    have h2 := ih (h.1 _ hx)
    omega

theorem dsM_rank_lt {n : Nat} {st : DS} {i j : Nat}
    (hij : st.rank i < st.rank j) (hj : j < n) :
    dsM n st j < dsM n st i := by
  apply Finset.card_lt_card
  rw [Finset.ssubset_iff_of_subset]
  · exact ⟨j, Finset.mem_filter.mpr ⟨Finset.mem_range.mpr hj, hij⟩,
      fun hmem => absurd (Finset.mem_filter.mp hmem).2 (lt_irrefl _)⟩
  · intro k hk
    obtain ⟨hk1, hk2⟩ := Finset.mem_filter.mp hk
    refine Finset.mem_filter.mpr ⟨hk1, ?_⟩
    omega

theorem dsM_lt_n {n : Nat} {st : DS} {i : Nat} (hi : i < n) :
    dsM n st i < n := by
  have hsub : (Finset.range n).filter (fun j => st.rank i < st.rank j) ⊆
      (Finset.range n).erase i := by
    intro k hk
    obtain ⟨hk1, hk2⟩ := Finset.mem_filter.mp hk
    refine Finset.mem_erase.mpr ⟨?_, hk1⟩
    intro hki
    rw [hki] at hk2
    simp at hk2
  have h1 := Finset.card_le_card hsub
  rw [Finset.card_erase_of_mem (Finset.mem_range.mpr hi),
    Finset.card_range] at h1
  unfold dsM
  omega

theorem dsM_rank_congr {n : Nat} {st st2 : DS}
    (h : ∀ x, st.rank x = st2.rank x) (i : Nat) :
    dsM n st i = dsM n st2 i := by
  unfold dsM
  congr 1
  apply Finset.filter_congr
  intro j _
  rw [h i, h j]

theorem RootsTo_total {n : Nat} {st : DS} (h : DSInv n st) :
    ∀ x, x < n → ∃ r, RootsTo st x r := by
  suffices H : ∀ k x, x < n → dsM n st x ≤ k → ∃ r, RootsTo st x r by
    exact fun x hx => H (dsM n st x) x hx (le_refl _)
  intro k
  induction k with
  | zero =>
    intro x hx h0
    by_cases hroot : st.parent x = x
    · exact ⟨x, RootsTo.root hroot⟩
    · have := dsM_rank_lt (n := n) (h.2 x hx hroot) (h.1 x hx)
      omega
  | succ k ih =>
    intro x hx hk
    by_cases hroot : st.parent x = x
    · exact ⟨x, RootsTo.root hroot⟩
    · have hlt := dsM_rank_lt (n := n) (h.2 x hx hroot) (h.1 x hx)
      obtain ⟨r, hr⟩ := ih (st.parent x) (h.1 x hx) (by omega)
      exact ⟨r, RootsTo.step hroot hr⟩

/-- Path compression: pointing a non-root node straight at its root
changes no node's root. -/
theorem RootsTo_shortcut {st : DS} {i r : Nat} (hne : st.parent i ≠ i)
    (hr : RootsTo st i r) (hri : r ≠ i) :
    ∀ x r2, RootsTo (setParent st i r) x r2 ↔ RootsTo st x r2 := by
  have hroot : st.parent r = r := RootsTo_isRoot hr
  intro x r2
  constructor
  · intro h2
    induction h2 with
    | root h0 =>
      rename_i i0
      by_cases hi0 : i0 = i
      · exfalso
        rw [hi0] at h0
        have : (setParent st i r).parent i = r := by simp [setParent]
        rw [this] at h0
        exact hri h0
      · have h1 : st.parent i0 = i0 := by
          have : (setParent st i r).parent i0 = st.parent i0 := by
            simp [setParent, hi0]
          rw [← this]
          exact h0
        exact RootsTo.root h1
    | step h0 hrec ih =>
      rename_i i0 r0
      by_cases hi0 : i0 = i
      · have hpar : (setParent st i r).parent i0 = r := by
          simp [setParent, hi0]
        have hr2 : r0 = r := RootsTo_of_root hroot (hpar ▸ ih)
        rw [hi0, hr2]
        exact hr
      · have hpar : (setParent st i r).parent i0 = st.parent i0 := by
          simp [setParent, hi0]
        exact RootsTo.step (by rw [← hpar]; exact h0) (hpar ▸ ih)
  · intro h2
    induction h2 with
    | root h0 =>
      rename_i i0
      have hi0 : i0 ≠ i := fun hh => hne (hh ▸ h0)
      exact RootsTo.root (by simp [setParent, hi0, h0])
    | step h0 hrec ih =>
      rename_i i0 r0
      by_cases hi0 : i0 = i
      · have hr2 : r0 = r :=
          RootsTo_unique (RootsTo.step (hi0 ▸ hne) (hi0 ▸ hrec)) (hi0 ▸ hr)
        have hpr : (setParent st i r).parent i0 = r := by
          simp [setParent, hi0]
        rw [hr2]
        exact RootsTo.step (by rw [hpr]; exact fun hh => hri (hi0 ▸ hh))
          (by
            rw [hpr]
            exact RootsTo.root (by simp [setParent, hri, hroot]))
      · have hpar : (setParent st i r).parent i0 = st.parent i0 := by
          simp [setParent, hi0]
        exact RootsTo.step (by rw [hpar]; exact h0) (by rw [hpar]; exact ih)

/-- Full specification of the fuelled `find`: with enough fuel it returns
the root of `i`, leaves ranks untouched, preserves the invariant, every
node's root, and the set of roots. -/
theorem dsFind_spec {n : Nat} :
    ∀ (k : Nat) (st : DS) (i f : Nat), DSInv n st → i < n →
      dsM n st i ≤ k → k < f →
      RootsTo st i (dsFind f st i).2 ∧
      (∀ x, (dsFind f st i).1.rank x = st.rank x) ∧
      DSInv n (dsFind f st i).1 ∧
      (∀ x r, RootsTo (dsFind f st i).1 x r ↔ RootsTo st x r) ∧
      (∀ x, (dsFind f st i).1.parent x = x ↔ st.parent x = x) := by
  intro k
  induction k with
  | zero =>
    intro st i f hinv hi hm hf
    obtain ⟨f2, rfl⟩ : ∃ f2, f = f2 + 1 := ⟨f - 1, by omega⟩
    by_cases hroot : st.parent i = i
    · rw [dsFind, if_pos hroot]
      exact ⟨RootsTo.root hroot, fun _ => rfl, hinv, fun _ _ => Iff.rfl,
        fun _ => Iff.rfl⟩
    · exfalso
      have := dsM_rank_lt (n := n) (hinv.2 i hi hroot) (hinv.1 i hi)
      omega
  | succ k ih =>
    intro st i f hinv hi hm hf
    obtain ⟨f2, rfl⟩ : ∃ f2, f = f2 + 1 := ⟨f - 1, by omega⟩
    by_cases hroot : st.parent i = i
    · rw [dsFind, if_pos hroot]
      exact ⟨RootsTo.root hroot, fun _ => rfl, hinv, fun _ _ => Iff.rfl,
        fun _ => Iff.rfl⟩
    · have hplt : st.parent i < n := hinv.1 i hi
      have hmlt : dsM n st (st.parent i) < dsM n st i :=
        dsM_rank_lt (hinv.2 i hi hroot) hplt
      obtain ⟨hr, hrank, hinv1, hRiff, hrootiff⟩ :=
        ih st (st.parent i) f2 hinv hplt (by omega) (by omega)
      rw [dsFind, if_neg hroot]
      show RootsTo st i (setParent (dsFind f2 st (st.parent i)).1 i
          (dsFind f2 st (st.parent i)).2, (dsFind f2 st (st.parent i)).2).2 ∧ _
      have hri : RootsTo st i (dsFind f2 st (st.parent i)).2 :=
        RootsTo.step hroot hr
      have hrankle : st.rank (st.parent i) ≤
          st.rank (dsFind f2 st (st.parent i)).2 :=
        RootsTo_rank_le hinv hplt hr
      have hranklt : st.rank i < st.rank (dsFind f2 st (st.parent i)).2 := by
        have := hinv.2 i hi hroot
        omega
      have hrne : (dsFind f2 st (st.parent i)).2 ≠ i := by
        intro hh
        rw [hh] at hranklt
        omega
      have hrlt : (dsFind f2 st (st.parent i)).2 < n :=
        RootsTo_lt hinv hi hri
      have hne1 : (dsFind f2 st (st.parent i)).1.parent i ≠ i :=
        fun hh => hroot ((hrootiff i).mp hh)
      have hr1 : RootsTo (dsFind f2 st (st.parent i)).1 i
          (dsFind f2 st (st.parent i)).2 := (hRiff _ _).mpr hri
      have hshort := RootsTo_shortcut hne1 hr1 hrne
      refine ⟨hri, fun x => hrank x, ⟨?_, ?_⟩, ?_, ?_⟩
      · intro x hx
        by_cases hxi : x = i
        · show (if x = i then _ else _) < n
          rw [if_pos hxi]
          exact hrlt
        · show (if x = i then _ else _) < n
          rw [if_neg hxi]
          exact hinv1.1 x hx
      · intro x hx hnex
        show (dsFind f2 st (st.parent i)).1.rank x <
          (dsFind f2 st (st.parent i)).1.rank
            ((setParent _ i (dsFind f2 st (st.parent i)).2).parent x)
        by_cases hxi : x = i
        · have hpx : (setParent (dsFind f2 st (st.parent i)).1 i
              (dsFind f2 st (st.parent i)).2).parent x =
                (dsFind f2 st (st.parent i)).2 := by
            simp [setParent, hxi]
          rw [hpx, hrank, hrank, hxi]
          exact hranklt
        · have hpx : (setParent (dsFind f2 st (st.parent i)).1 i
              (dsFind f2 st (st.parent i)).2).parent x =
                (dsFind f2 st (st.parent i)).1.parent x := by
            simp [setParent, hxi]
          rw [hpx]
          refine hinv1.2 x hx ?_
          rw [← hpx]
          exact hnex
      · intro x r
        rw [hshort x r]
        exact hRiff x r
      · intro x
        by_cases hxi : x = i
        · constructor
          · intro hh
            exfalso
            have hpx : (setParent (dsFind f2 st (st.parent i)).1 i
                (dsFind f2 st (st.parent i)).2).parent x =
                  (dsFind f2 st (st.parent i)).2 := by
              simp [setParent, hxi]
            rw [hpx] at hh
            exact hrne (hh.trans hxi)
          · intro hh
            exact absurd ((hxi ▸ hh : st.parent i = i)) hroot
        · have hpx : (setParent (dsFind f2 st (st.parent i)).1 i
              (dsFind f2 st (st.parent i)).2).parent x =
                (dsFind f2 st (st.parent i)).1.parent x := by
            simp [setParent, hxi]
          rw [hpx]
          exact hrootiff x

theorem RootsTo_attach_keep {st : DS} {ra rb : Nat}
    (hrb : st.parent rb = rb) {x r : Nat} (h : RootsTo st x r) :
    r ≠ rb → RootsTo (setParent st rb ra) x r := by
  induction h with
  | root h0 =>
    rename_i i0
    intro hner
    exact RootsTo.root (by simp [setParent, hner, h0])
  | step h0 hrec ih =>
    rename_i i0 r0
    intro hner
    have hi0 : i0 ≠ rb := fun hh => h0 (by rw [hh]; exact hrb)
    have hpar : (setParent st rb ra).parent i0 = st.parent i0 := by
      simp [setParent, hi0]
    exact RootsTo.step (by rw [hpar]; exact h0) (by rw [hpar]; exact ih hner)

theorem RootsTo_attach_move {st : DS} {ra rb : Nat}
    (hra : st.parent ra = ra) (hrb : st.parent rb = rb) (hne : ra ≠ rb)
    {x r : Nat} (h : RootsTo st x r) :
    r = rb → RootsTo (setParent st rb ra) x ra := by
  induction h with
  | root h0 =>
    rename_i i0
    intro hreq
    have hpr : (setParent st rb ra).parent i0 = ra := by
      simp [setParent, hreq]
    refine RootsTo.step ?_ ?_
    · rw [hpr, hreq]
      exact hne
    · rw [hpr]
      exact RootsTo.root (by simp [setParent, hne, hra])
  | step h0 hrec ih =>
    rename_i i0 r0
    intro hreq
    have hi0 : i0 ≠ rb := fun hh => h0 (by rw [hh]; exact hrb)
    have hpar : (setParent st rb ra).parent i0 = st.parent i0 := by
      simp [setParent, hi0]
    exact RootsTo.step (by rw [hpar]; exact h0) (by rw [hpar]; exact ih hreq)

/-- Attaching root `rb` under root `ra`: every node's root is unchanged
unless it was `rb`, in which case it becomes `ra`. -/
theorem RootsTo_attach {st : DS} {ra rb : Nat} (hra : st.parent ra = ra)
    (hrb : st.parent rb = rb) (hne : ra ≠ rb) :
    ∀ x r, RootsTo (setParent st rb ra) x r ↔
      ((RootsTo st x r ∧ r ≠ rb) ∨ (RootsTo st x rb ∧ r = ra)) := by
  intro x r
  constructor
  · intro h
    induction h with
    | root h0 =>
      rename_i i0
      by_cases hi0 : i0 = rb
      · exfalso
        have hpr : (setParent st rb ra).parent i0 = ra := by
          simp [setParent, hi0]
        rw [hpr] at h0
        exact hne (h0.trans hi0)
      · have h1 : st.parent i0 = i0 := by
          have heq : (setParent st rb ra).parent i0 = st.parent i0 := by
            simp [setParent, hi0]
          rw [← heq]
          exact h0
        exact Or.inl ⟨RootsTo.root h1, hi0⟩
    | step h0 hrec ih =>
      rename_i i0 r0
      by_cases hi0 : i0 = rb
      · have hpr : (setParent st rb ra).parent i0 = ra := by
          simp [setParent, hi0]
        rw [hpr] at ih
        rcases ih with ⟨hra0, hner⟩ | ⟨hrb0, hreq⟩
        · have hr0 : r0 = ra := RootsTo_of_root hra hra0
          exact Or.inr ⟨by rw [hi0]; exact RootsTo.root hrb, hr0⟩
        · exact absurd (RootsTo_of_root hra hrb0).symm hne
      · have hpar : (setParent st rb ra).parent i0 = st.parent i0 := by
          simp [setParent, hi0]
        rw [hpar] at h0 ih
        rcases ih with ⟨hh, hner⟩ | ⟨hh, hreq⟩
        · exact Or.inl ⟨RootsTo.step h0 hh, hner⟩
        · exact Or.inr ⟨RootsTo.step h0 hh, hreq⟩
  · rintro (⟨hh, hner⟩ | ⟨hh, hreq⟩)
    · exact RootsTo_attach_keep hrb hh hner
    · rw [hreq]
      exact RootsTo_attach_move hra hrb hne hh rfl

theorem sameRootP_iff_root {st : DS} {x y rx ry : Nat}
    (hx : RootsTo st x rx) (hy : RootsTo st y ry) :
    sameRootP st x y ↔ rx = ry := by
  constructor
  · rintro ⟨r, h1, h2⟩
    rw [RootsTo_unique hx h1, RootsTo_unique hy h2]
  · intro h
    exact ⟨rx, hx, h ▸ hy⟩

theorem sameRootP_congr {st st2 : DS}
    (h : ∀ x r, RootsTo st2 x r ↔ RootsTo st x r) (x y : Nat) :
    sameRootP st2 x y ↔ sameRootP st x y :=
  exists_congr fun r => and_congr (h x r) (h y r)

theorem sameRootP_alt {st : DS} {j rj : Nat} (hrj : RootsTo st j rj)
    (x : Nat) : sameRootP st x rj ↔ sameRootP st x j := by
  constructor
  · rintro ⟨r, hxr, hr⟩
    have : r = rj := RootsTo_of_root (RootsTo_isRoot hrj) hr
    exact ⟨rj, this ▸ hxr, hrj⟩
  · rintro ⟨r, hxr, hjr⟩
    have : r = rj := RootsTo_unique hjr hrj
    exact ⟨rj, this ▸ hxr, RootsTo.root (RootsTo_isRoot hrj)⟩

/-- Abstract specification of attaching root `rb` under root `ra`, for any
state whose parent array is the pointwise update (covering both the plain
attach and the attach-with-rank-bump). -/
theorem attach_spec {n : Nat} {st st2 : DS} {ra rb : Nat} (hinv : DSInv n st)
    (hra : st.parent ra = ra) (hrb : st.parent rb = rb) (hne : ra ≠ rb)
    (hpar : ∀ x, st2.parent x = if x = rb then ra else st.parent x) :
    (∀ x y, x < n → y < n →
      (sameRootP st2 x y ↔ (sameRootP st x y ∨
        ((sameRootP st x ra ∨ sameRootP st x rb) ∧
          (sameRootP st y ra ∨ sameRootP st y rb))))) ∧
    (∀ x, (st2.parent x = x ↔ (st.parent x = x ∧ x ≠ rb))) := by
  have hcong : ∀ x, st2.parent x = (setParent st rb ra).parent x := by
    intro x
    rw [hpar]
    simp [setParent]
  have hmain : ∀ x r, RootsTo st2 x r ↔
      ((RootsTo st x r ∧ r ≠ rb) ∨ (RootsTo st x rb ∧ r = ra)) := by
    intro x r
    constructor
    · intro h
      exact (RootsTo_attach hra hrb hne x r).mp (RootsTo_parent_congr hcong h)
    · intro h
      exact RootsTo_parent_congr (fun y => (hcong y).symm)
        ((RootsTo_attach hra hrb hne x r).mpr h)
  constructor
  · intro x y hx hy
    obtain ⟨rx, hrx⟩ := RootsTo_total hinv x hx
    obtain ⟨ry, hry⟩ := RootsTo_total hinv y hy
    have hrx2 : RootsTo st2 x (if rx = rb then ra else rx) := by
      by_cases hxb : rx = rb
      · rw [if_pos hxb]
        exact (hmain x ra).mpr (Or.inr ⟨hxb ▸ hrx, rfl⟩)
      · rw [if_neg hxb]
        exact (hmain x rx).mpr (Or.inl ⟨hrx, hxb⟩)
    have hry2 : RootsTo st2 y (if ry = rb then ra else ry) := by
      by_cases hyb : ry = rb
      · rw [if_pos hyb]
        exact (hmain y ra).mpr (Or.inr ⟨hyb ▸ hry, rfl⟩)
      · rw [if_neg hyb]
        exact (hmain y ry).mpr (Or.inl ⟨hry, hyb⟩)
    rw [sameRootP_iff_root hrx2 hry2, sameRootP_iff_root hrx hry,
      sameRootP_iff_root hrx (RootsTo.root hra),
      sameRootP_iff_root hrx (RootsTo.root hrb),
      sameRootP_iff_root hry (RootsTo.root hra),
      sameRootP_iff_root hry (RootsTo.root hrb)]
    split_ifs with h1 h2 h2 <;> omega
  · intro x
    rw [hpar x]
    by_cases hxb : x = rb
    · rw [if_pos hxb]
      constructor
      · intro hh
        exact absurd (hh.trans hxb) hne
      · rintro ⟨_, hxx⟩
        exact absurd hxb hxx
    · rw [if_neg hxb]
      simp [hxb]

theorem DSInv_attach {n : Nat} {st : DS} {ra rb : Nat} (hinv : DSInv n st)
    (hran : ra < n) (hrank : st.rank rb < st.rank ra) :
    DSInv n (setParent st rb ra) := by
  constructor
  · intro x hx
    show (if x = rb then ra else st.parent x) < n
    by_cases hxb : x = rb
    · rw [if_pos hxb]; exact hran
    · rw [if_neg hxb]; exact hinv.1 x hx
  · intro x hx hnex
    show st.rank x < st.rank ((setParent st rb ra).parent x)
    by_cases hxb : x = rb
    · have hp : (setParent st rb ra).parent x = ra := by
        simp [setParent, hxb]
      rw [hp, hxb]
      exact hrank
    · have hp : (setParent st rb ra).parent x = st.parent x := by
        simp [setParent, hxb]
      rw [hp]
      have hnex' : st.parent x ≠ x := by
        intro hc
        apply hnex
        show (if x = rb then ra else st.parent x) = x
        rw [if_neg hxb]
        exact hc
      exact hinv.2 x hx hnex'

theorem DSInv_attach_bump {n : Nat} {st : DS} {ra rb : Nat}
    (hinv : DSInv n st) (hra : st.parent ra = ra) (hne : ra ≠ rb)
    (hran : ra < n) (hrank : st.rank rb = st.rank ra) :
    DSInv n (setRank (setParent st rb ra) ra (st.rank ra + 1)) := by
  constructor
  · intro x hx
    show (if x = rb then ra else st.parent x) < n
    by_cases hxb : x = rb
    · rw [if_pos hxb]; exact hran
    · rw [if_neg hxb]; exact hinv.1 x hx
  · intro x hx hnex
    have hnex2 : (if x = rb then ra else st.parent x) ≠ x := hnex
    show (if x = ra then st.rank ra + 1 else st.rank x) <
      (if (if x = rb then ra else st.parent x) = ra then st.rank ra + 1
        else st.rank (if x = rb then ra else st.parent x))
    by_cases hxb : x = rb
    · rw [if_pos hxb] at hnex2 ⊢
      rw [if_neg (by rw [hxb]; exact fun hc => hne hc.symm), if_pos rfl, hxb,
        hrank]
      omega
    · rw [if_neg hxb] at hnex2 ⊢
      by_cases hxa : x = ra
      · exact absurd (hxa ▸ hra) hnex2
      · rw [if_neg hxa]
        have hlt := hinv.2 x hx hnex2
        by_cases hpa : st.parent x = ra
        · rw [if_pos hpa]
          rw [hpa] at hlt
          omega
        · rw [if_neg hpa]
          exact hlt

/-- Behaviour of the union step, stated over the post-find state `st2` and
the two roots `ri`, `rj`. -/
theorem dsUnion_core_spec {n : Nat} {st st2 : DS} {ri rj : Nat}
    {res : DS × Bool}
    (hrank12 : ∀ x, st2.rank x = st.rank x)
    (hR12 : ∀ x r, RootsTo st2 x r ↔ RootsTo st x r)
    (hroots12 : ∀ x, st2.parent x = x ↔ st.parent x = x)
    (hinv2 : DSInv n st2)
    (hrootri : st.parent ri = ri) (hrootrj : st.parent rj = rj)
    (hrin : ri < n) (hrjn : rj < n)
    (hres : res = if ri = rj then (st2, false)
      else if st2.rank ri < st2.rank rj then (setParent st2 ri rj, true)
      else if st2.rank rj < st2.rank ri then (setParent st2 rj ri, true)
      else (setRank (setParent st2 rj ri) ri (st2.rank ri + 1), true)) :
    DSInv n res.1 ∧ (res.2 = false ↔ ri = rj) ∧
    (ri = rj → res.1 = st2) ∧
    (ri ≠ rj →
      (∀ x y, x < n → y < n →
        (sameRootP res.1 x y ↔ (sameRootP st x y ∨
          ((sameRootP st x ri ∨ sameRootP st x rj) ∧
            (sameRootP st y ri ∨ sameRootP st y rj))))) ∧
      (∃ rd, (rd = ri ∨ rd = rj) ∧
        ∀ x, (res.1.parent x = x ↔ (st.parent x = x ∧ x ≠ rd))) ∧
      (st.rank ri < st.rank rj →
        res.1.parent ri = rj ∧ ∀ x, res.1.rank x = st.rank x) ∧
      (st.rank rj < st.rank ri →
        res.1.parent rj = ri ∧ ∀ x, res.1.rank x = st.rank x) ∧
      (st.rank ri = st.rank rj →
        res.1.parent rj = ri ∧ res.1.rank ri = st.rank ri + 1 ∧
          ∀ x, x ≠ ri → res.1.rank x = st.rank x)) := by
  have hrootri2 : st2.parent ri = ri := (hroots12 ri).mpr hrootri
  have hrootrj2 : st2.parent rj = rj := (hroots12 rj).mpr hrootrj
  subst hres
  split_ifs with h1 h2 h3
  · dsimp only
    exact ⟨hinv2, by simp [h1], fun _ => rfl, fun hne => absurd h1 hne⟩
  · dsimp only
    have hatt := @attach_spec n st2 (setParent st2 ri rj) rj ri hinv2
      hrootrj2 hrootri2 (fun hc => h1 hc.symm) (fun x => rfl)
    refine ⟨@DSInv_attach n st2 rj ri hinv2 hrjn h2, by simp [h1],
      fun hc => absurd hc h1, fun _ => ⟨?_, ?_, ?_, ?_, ?_⟩⟩
    · intro x y hx hy
      rw [hatt.1 x y hx hy, sameRootP_congr hR12 x y,
        sameRootP_congr hR12 x rj, sameRootP_congr hR12 x ri,
        sameRootP_congr hR12 y rj, sameRootP_congr hR12 y ri]
      tauto
    · refine ⟨ri, Or.inl rfl, fun x => ?_⟩
      rw [hatt.2 x, hroots12 x]
    · intro _
      refine ⟨?_, fun x => hrank12 x⟩
      show (if ri = ri then rj else st2.parent ri) = rj
      rw [if_pos rfl]
    · intro hc
      rw [hrank12 ri, hrank12 rj] at h2
      omega
    · intro hc
      rw [hrank12 ri, hrank12 rj] at h2
      omega
  · dsimp only
    have hatt := @attach_spec n st2 (setParent st2 rj ri) ri rj hinv2
      hrootri2 hrootrj2 h1 (fun x => rfl)
    refine ⟨@DSInv_attach n st2 ri rj hinv2 hrin h3, by simp [h1],
      fun hc => absurd hc h1, fun _ => ⟨?_, ?_, ?_, ?_, ?_⟩⟩
    · intro x y hx hy
      rw [hatt.1 x y hx hy, sameRootP_congr hR12 x y,
        sameRootP_congr hR12 x ri, sameRootP_congr hR12 x rj,
        sameRootP_congr hR12 y ri, sameRootP_congr hR12 y rj]
    · refine ⟨rj, Or.inr rfl, fun x => ?_⟩
      rw [hatt.2 x, hroots12 x]
    · intro hc
      rw [hrank12 ri, hrank12 rj] at h3
      omega
    · intro _
      refine ⟨?_, fun x => hrank12 x⟩
      show (if rj = rj then ri else st2.parent rj) = ri
      rw [if_pos rfl]
    · intro hc
      rw [hrank12 ri, hrank12 rj] at h3
      omega
  · dsimp only
    have heqr : st2.rank rj = st2.rank ri := by omega
    have hatt := @attach_spec n st2
      (setRank (setParent st2 rj ri) ri (st2.rank ri + 1)) ri rj hinv2
      hrootri2 hrootrj2 h1 (fun x => rfl)
    refine ⟨@DSInv_attach_bump n st2 ri rj hinv2 hrootri2 h1 hrin heqr,
      by simp [h1], fun hc => absurd hc h1, fun _ => ⟨?_, ?_, ?_, ?_, ?_⟩⟩
    · intro x y hx hy
      rw [hatt.1 x y hx hy, sameRootP_congr hR12 x y,
        sameRootP_congr hR12 x ri, sameRootP_congr hR12 x rj,
        sameRootP_congr hR12 y ri, sameRootP_congr hR12 y rj]
    · refine ⟨rj, Or.inr rfl, fun x => ?_⟩
      rw [hatt.2 x, hroots12 x]
    · intro hc
      rw [← hrank12 ri, ← hrank12 rj] at hc
      omega
    · intro hc
      rw [← hrank12 ri, ← hrank12 rj] at hc
      omega
    · intro _
      refine ⟨?_, ?_, ?_⟩
      · show (if rj = rj then ri else st2.parent rj) = ri
        rw [if_pos rfl]
      · show (if ri = ri then st2.rank ri + 1
          else (setParent st2 rj ri).rank ri) = st.rank ri + 1
        rw [if_pos rfl, hrank12 ri]
      · intro x hx
        show (if x = ri then st2.rank ri + 1
          else (setParent st2 rj ri).rank x) = st.rank x
        rw [if_neg hx]
        exact hrank12 x

/-- Full specification of `DisjointSet.union` on a well-formed state:
both roots are found, the boolean reports whether a merge happened, the
invariant is preserved, and the partition/parent/rank effects are exactly
the union-by-rank ones. -/
theorem dsUnion_spec {n : Nat} {st : DS} (i j : Nat) (hinv : DSInv n st)
    (hi : i < n) (hj : j < n) :
    ∃ ri rj : Nat, RootsTo st i ri ∧ RootsTo st j rj ∧ ri < n ∧ rj < n ∧
      st.parent ri = ri ∧ st.parent rj = rj ∧
      DSInv n (dsUnion n st i j).1 ∧
      ((dsUnion n st i j).2 = false ↔ ri = rj) ∧
      (ri = rj →
        (∀ x, (dsUnion n st i j).1.rank x = st.rank x) ∧
        (∀ x r, RootsTo (dsUnion n st i j).1 x r ↔ RootsTo st x r) ∧
        (∀ x, ((dsUnion n st i j).1.parent x = x ↔ st.parent x = x))) ∧
      (ri ≠ rj →
        (∀ x y, x < n → y < n →
          (sameRootP (dsUnion n st i j).1 x y ↔ (sameRootP st x y ∨
            ((sameRootP st x i ∨ sameRootP st x j) ∧
              (sameRootP st y i ∨ sameRootP st y j))))) ∧
        (∃ rd, (rd = ri ∨ rd = rj) ∧
          ∀ x, ((dsUnion n st i j).1.parent x = x ↔
            (st.parent x = x ∧ x ≠ rd))) ∧
        (st.rank ri < st.rank rj →
          (dsUnion n st i j).1.parent ri = rj ∧
            ∀ x, (dsUnion n st i j).1.rank x = st.rank x) ∧
        (st.rank rj < st.rank ri →
          (dsUnion n st i j).1.parent rj = ri ∧
            ∀ x, (dsUnion n st i j).1.rank x = st.rank x) ∧
        (st.rank ri = st.rank rj →
          (dsUnion n st i j).1.parent rj = ri ∧
            (dsUnion n st i j).1.rank ri = st.rank ri + 1 ∧
            ∀ x, x ≠ ri → (dsUnion n st i j).1.rank x = st.rank x)) := by
  obtain ⟨hfr1, hrank1, hinv1, hR1, hroots1⟩ :=
    dsFind_spec (dsM n st i) st i n hinv hi le_rfl (dsM_lt_n hi)
  obtain ⟨hfr2, hrank2, hinv2, hR2, hroots2⟩ :=
    dsFind_spec (dsM n (dsFind n st i).1 j) (dsFind n st i).1 j n hinv1 hj
      le_rfl (dsM_lt_n hj)
  have hri : RootsTo st i (dsFind n st i).2 := hfr1
  have hrj : RootsTo st j (dsFind n (dsFind n st i).1 j).2 :=
    (hR1 j _).mp hfr2
  have hrin : (dsFind n st i).2 < n := RootsTo_lt hinv hi hri
  have hrjn : (dsFind n (dsFind n st i).1 j).2 < n := RootsTo_lt hinv hj hrj
  have hrootri : st.parent (dsFind n st i).2 = (dsFind n st i).2 :=
    RootsTo_isRoot hri
  have hrootrj : st.parent (dsFind n (dsFind n st i).1 j).2 =
      (dsFind n (dsFind n st i).1 j).2 := RootsTo_isRoot hrj
  have hrank12 : ∀ x, (dsFind n (dsFind n st i).1 j).1.rank x = st.rank x :=
    fun x => (hrank2 x).trans (hrank1 x)
  have hR12 : ∀ x r, RootsTo (dsFind n (dsFind n st i).1 j).1 x r ↔
      RootsTo st x r := fun x r => (hR2 x r).trans (hR1 x r)
  have hroots12 : ∀ x, (dsFind n (dsFind n st i).1 j).1.parent x = x ↔
      st.parent x = x := fun x => (hroots2 x).trans (hroots1 x)
  obtain ⟨hc1, hc2, hc3, hc4⟩ := @dsUnion_core_spec n st
    (dsFind n (dsFind n st i).1 j).1 (dsFind n st i).2
    (dsFind n (dsFind n st i).1 j).2 (dsUnion n st i j) hrank12 hR12
    hroots12 hinv2 hrootri hrootrj hrin hrjn rfl
  refine ⟨(dsFind n st i).2, (dsFind n (dsFind n st i).1 j).2, hri, hrj,
    hrin, hrjn, hrootri, hrootrj, hc1, hc2, ?_, ?_⟩
  · intro hrr
    have heq := hc3 hrr
    exact ⟨fun x => by rw [heq]; exact hrank12 x,
      fun x r => by rw [heq]; exact hR12 x r,
      fun x => by rw [heq]; exact hroots12 x⟩
  · intro hne
    obtain ⟨hp, hrd, hk1, hk2, hk3⟩ := hc4 hne
    refine ⟨?_, hrd, hk1, hk2, hk3⟩
    intro x y hx hy
    rw [hp x y hx hy, sameRootP_alt hri x, sameRootP_alt hrj x,
      sameRootP_alt hri y, sameRootP_alt hrj y]

/-- C6 (amended).  On a well-formed state, `union(i, j)` returns `False`
exactly when `i` and `j` already share a representative; then all ranks
and the whole partition are unchanged (though parent pointers may be
rewritten by path compression, see the counterexample).  Otherwise it
returns `True` and attaches the lower-rank root under the higher-rank
root without touching ranks; on a rank tie `j`'s root is attached under
`i`'s root and the rank of `i`'s root is incremented by one.  In the
merging case the new partition joins exactly the classes of `i` and
`j`. -/
theorem c6_union_semantics (n : Nat) (st : DS) (i j : Nat)
    (hinv : DSInv n st) (hi : i < n) (hj : j < n) :
    ∃ ri rj : Nat, RootsTo st i ri ∧ RootsTo st j rj ∧
      ((dsUnion n st i j).2 = false ↔ ri = rj) ∧
      (ri = rj →
        (∀ x, (dsUnion n st i j).1.rank x = st.rank x) ∧
        (∀ x y, sameRootP (dsUnion n st i j).1 x y ↔ sameRootP st x y)) ∧
      (ri ≠ rj →
        (st.rank ri < st.rank rj →
          (dsUnion n st i j).1.parent ri = rj ∧
            ∀ x, (dsUnion n st i j).1.rank x = st.rank x) ∧
        (st.rank rj < st.rank ri →
          (dsUnion n st i j).1.parent rj = ri ∧
            ∀ x, (dsUnion n st i j).1.rank x = st.rank x) ∧
        (st.rank ri = st.rank rj →
          (dsUnion n st i j).1.parent rj = ri ∧
            (dsUnion n st i j).1.rank ri = st.rank ri + 1 ∧
            ∀ x, x ≠ ri → (dsUnion n st i j).1.rank x = st.rank x) ∧
        (∀ x y, x < n → y < n →
          (sameRootP (dsUnion n st i j).1 x y ↔ (sameRootP st x y ∨
            ((sameRootP st x i ∨ sameRootP st x j) ∧
              (sameRootP st y i ∨ sameRootP st y j)))))) := by
  obtain ⟨ri, rj, hri, hrj, _, _, _, _, _, hb, heqc, hnec⟩ :=
    dsUnion_spec i j hinv hi hj
  refine ⟨ri, rj, hri, hrj, hb, ?_, ?_⟩
  · intro hrr
    obtain ⟨hk1, hk2, _⟩ := heqc hrr
    exact ⟨hk1, fun x y => sameRootP_congr hk2 x y⟩
  · intro hne
    obtain ⟨hp, _, hk1, hk2, hk3⟩ := hnec hne
    exact ⟨hk1, hk2, hk3, hp⟩

theorem c6_witness :
    ∃ ri rj : Nat, RootsTo dsDemo 3 ri ∧ RootsTo dsDemo 1 rj ∧
      ((dsUnion 4 dsDemo 3 1).2 = false ↔ ri = rj) ∧
      (ri = rj →
        (∀ x, (dsUnion 4 dsDemo 3 1).1.rank x = dsDemo.rank x) ∧
        (∀ x y, sameRootP (dsUnion 4 dsDemo 3 1).1 x y ↔
          sameRootP dsDemo x y)) ∧
      (ri ≠ rj →
        (dsDemo.rank ri < dsDemo.rank rj →
          (dsUnion 4 dsDemo 3 1).1.parent ri = rj ∧
            ∀ x, (dsUnion 4 dsDemo 3 1).1.rank x = dsDemo.rank x) ∧
        (dsDemo.rank rj < dsDemo.rank ri →
          (dsUnion 4 dsDemo 3 1).1.parent rj = ri ∧
            ∀ x, (dsUnion 4 dsDemo 3 1).1.rank x = dsDemo.rank x) ∧
        (dsDemo.rank ri = dsDemo.rank rj →
          (dsUnion 4 dsDemo 3 1).1.parent rj = ri ∧
            (dsUnion 4 dsDemo 3 1).1.rank ri = dsDemo.rank ri + 1 ∧
            ∀ x, x ≠ ri →
              (dsUnion 4 dsDemo 3 1).1.rank x = dsDemo.rank x) ∧
        (∀ x y, x < 4 → y < 4 →
          (sameRootP (dsUnion 4 dsDemo 3 1).1 x y ↔
            (sameRootP dsDemo x y ∨
              ((sameRootP dsDemo x 3 ∨ sameRootP dsDemo x 1) ∧
                (sameRootP dsDemo y 3 ∨ sameRootP dsDemo y 1)))))) :=
  c6_union_semantics 4 dsDemo 3 1 ⟨by decide, by decide⟩ (by decide)
    (by decide)

theorem edgeAdj_symm {α : Type} {es : List (α × Nat × Nat)} {x y : Nat}
    (h : edgeAdj es x y) : edgeAdj es y x := by
  obtain ⟨e, he, hor⟩ := h
  exact ⟨e, he, hor.symm⟩

theorem Conn_symm {α : Type} {es : List (α × Nat × Nat)} {x y : Nat}
    (h : Conn es x y) : Conn es y x :=
  Relation.ReflTransGen.symmetric (fun _ _ hh => edgeAdj_symm hh) h

theorem Conn_trans {α : Type} {es : List (α × Nat × Nat)} {x y z : Nat}
    (h1 : Conn es x y) (h2 : Conn es y z) : Conn es x z :=
  Relation.ReflTransGen.trans h1 h2

theorem Conn_mono {α : Type} {es1 es2 : List (α × Nat × Nat)}
    (hsub : ∀ e, e ∈ es1 → e ∈ es2) {x y : Nat} (h : Conn es1 x y) :
    Conn es2 x y :=
  Relation.ReflTransGen.mono
    (fun _ _ ⟨e, he, hor⟩ => ⟨e, hsub e he, hor⟩) h

theorem Conn_congr_mem {α : Type} {es1 es2 : List (α × Nat × Nat)}
    (hmm : ∀ e, e ∈ es1 ↔ e ∈ es2) (x y : Nat) :
    Conn es1 x y ↔ Conn es2 x y :=
  ⟨Conn_mono (fun e he => (hmm e).mp he),
    Conn_mono (fun e he => (hmm e).mpr he)⟩

theorem mem_neighborsOf {α : Type} {es : List (α × Nat × Nat)} {x y : Nat} :
    y ∈ neighborsOf es x ↔ edgeAdj es x y := by
  induction es with
  | nil =>
    simp [neighborsOf, edgeAdj]
  | cons e es ih =>
    have hstep : neighborsOf (e :: es) x =
        ((if e.2.1 = x then {e.2.2} else ∅) ∪
          (if e.2.2 = x then {e.2.1} else ∅)) ∪ neighborsOf es x := rfl
    have hadj : edgeAdj (e :: es) x y ↔
        (((e.2.1 = x ∧ e.2.2 = y) ∨ (e.2.1 = y ∧ e.2.2 = x)) ∨
          edgeAdj es x y) := by
      constructor
      · rintro ⟨e', he', hor⟩
        rcases List.mem_cons.mp he' with rfl | hmem
        · exact Or.inl hor
        · exact Or.inr ⟨e', hmem, hor⟩
      · rintro (hor | ⟨e', hmem, hor⟩)
        · exact ⟨e, List.mem_cons_self e es, hor⟩
        · exact ⟨e', List.mem_cons_of_mem e hmem, hor⟩
    rw [hstep, hadj]
    simp only [Finset.mem_union, ih]
    constructor
    · rintro ((h1 | h2) | h3)
      · by_cases hc : e.2.1 = x
        · rw [if_pos hc] at h1
          exact Or.inl (Or.inl ⟨hc, (Finset.mem_singleton.mp h1).symm⟩)
        · rw [if_neg hc] at h1
          exact absurd h1 (Finset.not_mem_empty y)
      · by_cases hc : e.2.2 = x
        · rw [if_pos hc] at h2
          exact Or.inl (Or.inr ⟨(Finset.mem_singleton.mp h2).symm, hc⟩)
        · rw [if_neg hc] at h2
          exact absurd h2 (Finset.not_mem_empty y)
      · exact Or.inr h3
    · rintro ((⟨h1, h2⟩ | ⟨h1, h2⟩) | h3)
      · refine Or.inl (Or.inl ?_)
        rw [if_pos h1]
        exact Finset.mem_singleton.mpr h2.symm
      · refine Or.inl (Or.inr ?_)
        rw [if_pos h2]
        exact Finset.mem_singleton.mpr h1.symm
      · exact Or.inr h3

theorem edgeAdj_append_one {α : Type} {es : List (α × Nat × Nat)} {w : α}
    {u v x y : Nat} :
    edgeAdj (es ++ [(w, u, v)]) x y ↔
      (edgeAdj es x y ∨ (u = x ∧ v = y) ∨ (u = y ∧ v = x)) := by
  constructor
  · rintro ⟨e, he, hor⟩
    rcases List.mem_append.mp he with hmem | hmem
    · exact Or.inl ⟨e, hmem, hor⟩
    · have he2 : e = (w, u, v) := List.mem_singleton.mp hmem
      subst he2
      exact Or.inr hor
  · rintro (⟨e, hmem, hor⟩ | hor)
    · exact ⟨e, List.mem_append_left _ hmem, hor⟩
    · exact ⟨(w, u, v), List.mem_append_right _ (List.mem_singleton.mpr rfl),
        hor⟩

theorem Conn_append_one {α : Type} {es : List (α × Nat × Nat)} {w : α}
    {u v x y : Nat} :
    Conn (es ++ [(w, u, v)]) x y ↔
      (Conn es x y ∨ ((Conn es x u ∨ Conn es x v) ∧
        (Conn es y u ∨ Conn es y v))) := by
  constructor
  · intro h
    induction h with
    | refl => exact Or.inl Relation.ReflTransGen.refl
    | tail hxb hbc ih =>
      rename_i b c
      rcases edgeAdj_append_one.mp hbc with hadj | ⟨h1, h2⟩ | ⟨h1, h2⟩
      · rcases ih with hxy | ⟨hx, hy⟩
        · exact Or.inl (hxy.tail hadj)
        · refine Or.inr ⟨hx, ?_⟩
          have hcb : Conn es c b :=
            Relation.ReflTransGen.single (edgeAdj_symm hadj)
          rcases hy with hy | hy
          · exact Or.inl (Conn_trans hcb hy)
          · exact Or.inr (Conn_trans hcb hy)
      · subst h1; subst h2
        rcases ih with hxy | ⟨hx, _⟩
        · exact Or.inr ⟨Or.inl hxy, Or.inr Relation.ReflTransGen.refl⟩
        · exact Or.inr ⟨hx, Or.inr Relation.ReflTransGen.refl⟩
      · subst h1; subst h2
        rcases ih with hxy | ⟨hx, _⟩
        · exact Or.inr ⟨Or.inr hxy, Or.inl Relation.ReflTransGen.refl⟩
        · exact Or.inr ⟨hx, Or.inl Relation.ReflTransGen.refl⟩
  · rintro (hxy | ⟨hx, hy⟩)
    · exact Conn_mono (fun e he => List.mem_append_left _ he) hxy
    · have huv : Conn (es ++ [(w, u, v)]) u v :=
        Relation.ReflTransGen.single
          (edgeAdj_append_one.mpr (Or.inr (Or.inl ⟨rfl, rfl⟩)))
      have hsub : ∀ a b, Conn es a b → Conn (es ++ [(w, u, v)]) a b :=
        fun a b hh => Conn_mono (fun e he => List.mem_append_left _ he) hh
      have hxu : Conn (es ++ [(w, u, v)]) x u := by
        rcases hx with hh | hh
        · exact hsub x u hh
        · exact Conn_trans (hsub x v hh) (Conn_symm huv)
      have hyu : Conn (es ++ [(w, u, v)]) y u := by
        rcases hy with hh | hh
        · exact hsub y u hh
        · exact Conn_trans (hsub y v hh) (Conn_symm huv)
      exact Conn_trans hxu (Conn_symm hyu)

theorem Conn_append_one_collapse {α : Type} {es : List (α × Nat × Nat)}
    {w : α} {u v : Nat} (huv : Conn es u v) (x y : Nat) :
    Conn (es ++ [(w, u, v)]) x y ↔ Conn es x y := by
  rw [Conn_append_one]
  constructor
  · rintro (h | ⟨hx, hy⟩)
    · exact h
    · have hxu : Conn es x u := by
        rcases hx with hh | hh
        · exact hh
        · exact Conn_trans hh (Conn_symm huv)
      have hyu : Conn es y u := by
        rcases hy with hh | hh
        · exact hh
        · exact Conn_trans hh (Conn_symm huv)
      exact Conn_trans hxu (Conn_symm hyu)
  · exact Or.inl

theorem DSInv_dsInit (n : Nat) : DSInv n (dsInit n) :=
  ⟨fun i hi => hi, fun i _ hne => absurd rfl hne⟩

theorem RootsTo_dsInit {n : Nat} {x r : Nat} :
    RootsTo (dsInit n) x r ↔ r = x := by
  constructor
  · intro h
    cases h with
    | root _ => rfl
    | step hne _ => exact absurd rfl hne
  · rintro rfl
    exact RootsTo.root rfl

theorem sameRootP_dsInit {n : Nat} (x y : Nat) :
    sameRootP (dsInit n) x y ↔ x = y := by
  constructor
  · rintro ⟨r, h1, h2⟩
    rw [RootsTo_dsInit.mp h1] at h2
    exact RootsTo_dsInit.mp h2
  · rintro rfl
    exact ⟨x, RootsTo.root rfl, RootsTo.root rfl⟩

theorem Conn_nil {α : Type} (x y : Nat) :
    Conn ([] : List (α × Nat × Nat)) x y ↔ x = y := by
  constructor
  · intro h
    rcases Relation.ReflTransGen.cases_head h with rfl | ⟨z, hz, _⟩
    · rfl
    · obtain ⟨e, he, _⟩ := hz
      exact absurd he (List.not_mem_nil e)
  · rintro rfl
    exact Relation.ReflTransGen.refl

theorem rootsCard_dsInit (n : Nat) : rootsCard n (dsInit n) = n := by
  unfold rootsCard
  have hfe : ((Finset.range n).filter (fun x => (dsInit n).parent x = x)) =
      Finset.range n := by
    apply Finset.filter_true_of_mem
    intro x _
    rfl
  rw [hfe, Finset.card_range]

theorem rootsCard_congr {n : Nat} {st st2 : DS}
    (h : ∀ x, st2.parent x = x ↔ st.parent x = x) :
    rootsCard n st2 = rootsCard n st := by
  unfold rootsCard
  congr 1
  apply Finset.filter_congr
  intro x _
  exact h x

theorem rootsCard_drop {n : Nat} {st st2 : DS} {rd : Nat} (hrdn : rd < n)
    (hrdroot : st.parent rd = rd)
    (h : ∀ x, st2.parent x = x ↔ (st.parent x = x ∧ x ≠ rd)) :
    rootsCard n st2 + 1 = rootsCard n st := by
  unfold rootsCard
  have hset : (Finset.range n).filter (fun x => st2.parent x = x) =
      ((Finset.range n).filter (fun x => st.parent x = x)).erase rd := by
    ext x
    simp only [Finset.mem_filter, Finset.mem_erase, Finset.mem_range]
    constructor
    · rintro ⟨hx, hp⟩
      obtain ⟨hp1, hp2⟩ := (h x).mp hp
      exact ⟨hp2, hx, hp1⟩
    · rintro ⟨hne, hx, hp⟩
      exact ⟨hx, (h x).mpr ⟨hp, hne⟩⟩
  rw [hset]
  exact Finset.card_erase_add_one
    (Finset.mem_filter.mpr ⟨Finset.mem_range.mpr hrdn, hrdroot⟩)

theorem acceptCount_cons {α : Type} (s : Step α) (t : List (Step α)) :
    acceptCount (s :: t) = acceptCount t +
      (match s with | Step.accept _ _ _ => 1 | _ => 0) := by
  cases s <;> simp [acceptCount, List.countP_cons]

/-- The running invariant of the Kruskal loop: starting from a well-formed
disjoint set whose partition matches connectivity over the edges `es`
already processed, processing `l` preserves well-formedness, makes the
partition match connectivity over `es ++ l`, and each `Accept` event
removes exactly one root. -/
theorem kruskal_fold {α : Type} (n : Nat) :
    ∀ (l es : List (α × Nat × Nat)) (st : DS),
      DSInv n st →
      (∀ e ∈ l, e.2.1 < n ∧ e.2.2 < n) →
      (∀ x y, x < n → y < n → (sameRootP st x y ↔ Conn es x y)) →
      DSInv n (kruskalDS n st l) ∧
      (∀ x y, x < n → y < n →
        (sameRootP (kruskalDS n st l) x y ↔ Conn (es ++ l) x y)) ∧
      acceptCount (kruskalGo n st l) + rootsCard n (kruskalDS n st l) =
        rootsCard n st := by
  intro l
  induction l with
  | nil =>
    intro es st hinv _ hpart
    refine ⟨hinv, ?_, ?_⟩
    · intro x y hx hy
      rw [List.append_nil]
      exact hpart x y hx hy
    · simp [kruskalDS, kruskalGo, acceptCount]
  | cons e rest ih =>
    obtain ⟨w, u, v⟩ := e
    intro es st hinv hv hpart
    have huv := hv (w, u, v) (List.mem_cons_self _ _)
    have hu : u < n := huv.1
    have hv2 : v < n := huv.2
    have hvrest : ∀ e ∈ rest, e.2.1 < n ∧ e.2.2 < n :=
      fun e he => hv e (List.mem_cons_of_mem _ he)
    obtain ⟨ri, rj, hri, hrj, hrin, hrjn, hrootri, hrootrj, hinvU, hb,
      heqc, hnec⟩ := dsUnion_spec u v hinv hu hv2
    have hds : kruskalDS n st ((w, u, v) :: rest) =
        kruskalDS n (dsUnion n st u v).1 rest := rfl
    have happ : es ++ (w, u, v) :: rest = (es ++ [(w, u, v)]) ++ rest := by
      simp
    have hgo : kruskalGo n st ((w, u, v) :: rest) =
        Step.check w u v ::
          (if (dsUnion n st u v).2 then Step.accept w u v
            else Step.reject w u v) ::
            kruskalGo n (dsUnion n st u v).1 rest := rfl
    by_cases hrr : ri = rj
    · have hbf : (dsUnion n st u v).2 = false := hb.mpr hrr
      obtain ⟨hkrank, hkR, hkroots⟩ := heqc hrr
      have hconnuv : Conn es u v := by
        refine (hpart u v hu hv2).mp ⟨ri, hri, ?_⟩
        rw [hrr]
        exact hrj
      have hpart' : ∀ x y, x < n → y < n →
          (sameRootP (dsUnion n st u v).1 x y ↔
            Conn (es ++ [(w, u, v)]) x y) := by
        intro x y hx hy
        rw [sameRootP_congr hkR x y, hpart x y hx hy,
          Conn_append_one_collapse hconnuv x y]
      obtain ⟨ihinv, ihpart, ihcount⟩ :=
        ih (es ++ [(w, u, v)]) (dsUnion n st u v).1 hinvU hvrest hpart'
      refine ⟨by rw [hds]; exact ihinv, ?_, ?_⟩
      · intro x y hx hy
        rw [hds, happ]
        exact ihpart x y hx hy
      · rw [hds, hgo, hbf,
          show (if false = true then Step.accept w u v
            else Step.reject w u v) = Step.reject w u v from rfl,
          acceptCount_cons, acceptCount_cons]
        have hrc : rootsCard n (dsUnion n st u v).1 = rootsCard n st :=
          rootsCard_congr hkroots
        dsimp only
        omega
    · have hbt : (dsUnion n st u v).2 = true := by
        cases hcb : (dsUnion n st u v).2 with
        | false => exact absurd (hb.mp hcb) hrr
        | true => rfl
      obtain ⟨hmerge, ⟨rd, hrdor, hrd⟩, _, _, _⟩ := hnec hrr
      have hrdn : rd < n := by
        rcases hrdor with rfl | rfl
        · exact hrin
        · exact hrjn
      have hrdroot : st.parent rd = rd := by
        rcases hrdor with rfl | rfl
        · exact hrootri
        · exact hrootrj
      have hdrop := rootsCard_drop hrdn hrdroot hrd
      have hpart' : ∀ x y, x < n → y < n →
          (sameRootP (dsUnion n st u v).1 x y ↔
            Conn (es ++ [(w, u, v)]) x y) := by
        intro x y hx hy
        rw [hmerge x y hx hy, hpart x y hx hy, hpart x u hx hu,
          hpart x v hx hv2, hpart y u hy hu, hpart y v hy hv2]
        exact Conn_append_one.symm
      obtain ⟨ihinv, ihpart, ihcount⟩ :=
        ih (es ++ [(w, u, v)]) (dsUnion n st u v).1 hinvU hvrest hpart'
      refine ⟨by rw [hds]; exact ihinv, ?_, ?_⟩
      · intro x y hx hy
        rw [hds, happ]
        exact ihpart x y hx hy
      · rw [hds, hgo, hbt,
          show (if true = true then Step.accept w u v
            else Step.reject w u v) = Step.accept w u v from rfl,
          acceptCount_cons, acceptCount_cons]
        dsimp only
        omega

theorem connStep_extensive {α : Type} (edges : List (α × Nat × Nat))
    (S : Finset Nat) : S ⊆ connStep edges S :=
  Finset.subset_union_left

theorem reachSet_succ {α : Type} (edges : List (α × Nat × Nat)) (k x : Nat) :
    reachSet edges (k + 1) x = connStep edges (reachSet edges k x) :=
  Function.iterate_succ_apply' (connStep edges) k {x}

theorem reachSet_le {α : Type} (edges : List (α × Nat × Nat)) {k m : Nat}
    (h : k ≤ m) (x : Nat) : reachSet edges k x ⊆ reachSet edges m x := by
  induction m with
  | zero =>
    have : k = 0 := Nat.le_zero.mp h
    rw [this]
  | succ m ih =>
    rcases Nat.lt_or_ge k (m + 1) with hlt | hge
    · have hk : k ≤ m := Nat.lt_succ_iff.mp hlt
      refine (ih hk).trans ?_
      rw [reachSet_succ]
      exact connStep_extensive edges _
    · have : k = m + 1 := Nat.le_antisymm h hge
      rw [this]

theorem mem_reachSet_conn {α : Type} {edges : List (α × Nat × Nat)} :
    ∀ {k x y : Nat}, y ∈ reachSet edges k x → Conn edges x y := by
  intro k
  induction k with
  | zero =>
    intro x y hy
    have : y = x := Finset.mem_singleton.mp hy
    rw [this]
    exact Relation.ReflTransGen.refl
  | succ k ih =>
    intro x y hy
    rw [reachSet_succ] at hy
    rcases Finset.mem_union.mp hy with hy | hy
    · exact ih hy
    · obtain ⟨z, hz, hyz⟩ := Finset.mem_biUnion.mp hy
      exact (ih hz).tail (mem_neighborsOf.mp hyz)

theorem reachSet_subset_range {α : Type} {edges : List (α × Nat × Nat)}
    {n : Nat} (hv : ∀ e ∈ edges, e.2.1 < n ∧ e.2.2 < n) :
    ∀ {k x : Nat}, x < n → reachSet edges k x ⊆ Finset.range n := by
  intro k
  induction k with
  | zero =>
    intro x hx y hy
    have : y = x := Finset.mem_singleton.mp hy
    rw [this]
    exact Finset.mem_range.mpr hx
  | succ k ih =>
    intro x hx y hy
    rw [reachSet_succ] at hy
    rcases Finset.mem_union.mp hy with hy | hy
    · exact ih hx hy
    · obtain ⟨z, _, hyz⟩ := Finset.mem_biUnion.mp hy
      obtain ⟨e, he, hor⟩ := mem_neighborsOf.mp hyz
      have := hv e he
      rcases hor with ⟨_, h2⟩ | ⟨h1, _⟩
      · rw [← h2]
        exact Finset.mem_range.mpr this.2
      · rw [← h1]
        exact Finset.mem_range.mpr this.1

theorem connStep_fix_iterate {α : Type} {edges : List (α × Nat × Nat)}
    {S : Finset Nat} (h : connStep edges S = S) :
    ∀ m, (connStep edges)^[m] S = S := by
  intro m
  induction m with
  | zero => rfl
  | succ m ih => rw [Function.iterate_succ_apply', ih, h]

theorem reachSet_stab {α : Type} (edges : List (α × Nat × Nat)) (x : Nat) :
    ∀ k, connStep edges (reachSet edges k x) = reachSet edges k x ∨
      k + 1 ≤ (reachSet edges k x).card := by
  intro k
  induction k with
  | zero =>
    right
    have : reachSet edges 0 x = {x} := rfl
    rw [this, Finset.card_singleton]
  | succ k ih =>
    rcases ih with hfix | hcard
    · left
      rw [reachSet_succ, hfix, hfix]
    · by_cases heq : reachSet edges (k + 1) x = reachSet edges k x
      · left
        rw [heq, ← reachSet_succ]
        rw [heq]
      · right
        have hsub : reachSet edges k x ⊆ reachSet edges (k + 1) x :=
          reachSet_le edges (Nat.le_succ k) x
        have hss : reachSet edges k x ⊂ reachSet edges (k + 1) x :=
          Finset.ssubset_iff_subset_ne.mpr ⟨hsub, fun hc => heq hc.symm⟩
        have := Finset.card_lt_card hss
        omega

theorem connStep_reachSet_fix {α : Type} {edges : List (α × Nat × Nat)}
    {n x : Nat} (hv : ∀ e ∈ edges, e.2.1 < n ∧ e.2.2 < n) (hx : x < n) :
    connStep edges (reachSet edges n x) = reachSet edges n x := by
  rcases reachSet_stab edges x n with hfix | hcard
  · exact hfix
  · have hle : (reachSet edges n x).card ≤ n := by
      have hsub : reachSet edges n x ⊆ Finset.range n :=
        reachSet_subset_range hv hx
      have := Finset.card_le_card hsub
      rw [Finset.card_range] at this
      exact this
    omega

theorem conn_mem_reachSet {α : Type} {edges : List (α × Nat × Nat)}
    {n x y : Nat} (hv : ∀ e ∈ edges, e.2.1 < n ∧ e.2.2 < n) (hx : x < n)
    (h : Conn edges x y) : y ∈ reachSet edges n x := by
  induction h with
  | refl =>
    exact reachSet_le edges (Nat.zero_le n) x (Finset.mem_singleton.mpr rfl)
  | tail hxb hbc ih =>
    rename_i b c
    rw [← connStep_reachSet_fix hv hx]
    refine Finset.mem_union.mpr (Or.inr ?_)
    exact Finset.mem_biUnion.mpr ⟨b, ih, mem_neighborsOf.mpr hbc⟩

theorem mem_reachSet_iff {α : Type} {edges : List (α × Nat × Nat)}
    {n x y : Nat} (hv : ∀ e ∈ edges, e.2.1 < n ∧ e.2.2 < n) (hx : x < n) :
    y ∈ reachSet edges n x ↔ Conn edges x y :=
  ⟨mem_reachSet_conn, conn_mem_reachSet hv hx⟩

theorem canonC_spec {α : Type} {edges : List (α × Nat × Nat)} {n x : Nat}
    (hv : ∀ e ∈ edges, e.2.1 < n ∧ e.2.2 < n) (hx : x < n) :
    canonC edges n x < n ∧ Conn edges x (canonC edges n x) := by
  have hxmem : x ∈ (List.range n).filter
      (fun y => decide (y ∈ reachSet edges n x)) :=
    List.mem_filter.mpr ⟨List.mem_range.mpr hx,
      decide_eq_true
        (reachSet_le edges (Nat.zero_le n) x (Finset.mem_singleton.mpr rfl))⟩
  cases hm : listMin ((List.range n).filter
      (fun y => decide (y ∈ reachSet edges n x))) with
  | none =>
    rw [listMin_eq_none.mp hm] at hxmem
    exact absurd hxmem (List.not_mem_nil x)
  | some m =>
    have hmem := listMin_mem hm
    obtain ⟨hmr, hmd⟩ := List.mem_filter.mp hmem
    have hmn : m < n := List.mem_range.mp hmr
    have hconn : Conn edges x m := mem_reachSet_conn (of_decide_eq_true hmd)
    have hce : canonC edges n x = m := by
      unfold canonC
      rw [hm]
      rfl
    rw [hce]
    exact ⟨hmn, hconn⟩

theorem canonC_congr {α : Type} {edges : List (α × Nat × Nat)} {n x y : Nat}
    (hv : ∀ e ∈ edges, e.2.1 < n ∧ e.2.2 < n) (hx : x < n) (hy : y < n)
    (hconn : Conn edges x y) : canonC edges n x = canonC edges n y := by
  have hfe : (List.range n).filter (fun z => decide (z ∈ reachSet edges n x))
      = (List.range n).filter (fun z => decide (z ∈ reachSet edges n y)) := by
    apply List.filter_congr
    intro a _
    apply decide_eq_decide.mpr
    rw [mem_reachSet_iff hv hx, mem_reachSet_iff hv hy]
    exact ⟨fun h => Conn_trans (Conn_symm hconn) h,
      fun h => Conn_trans hconn h⟩
  have hymem : y ∈ (List.range n).filter
      (fun z => decide (z ∈ reachSet edges n y)) :=
    List.mem_filter.mpr ⟨List.mem_range.mpr hy,
      decide_eq_true
        (reachSet_le edges (Nat.zero_le n) y (Finset.mem_singleton.mpr rfl))⟩
  cases hm : listMin ((List.range n).filter
      (fun z => decide (z ∈ reachSet edges n y))) with
  | none =>
    rw [listMin_eq_none.mp hm] at hymem
    exact absurd hymem (List.not_mem_nil y)
  | some m =>
    unfold canonC
    rw [hfe, hm]
    rfl

/-- On a state whose partition matches graph connectivity, the number of
disjoint-set roots equals the number of connected components. -/
theorem rootsCard_eq_numComponents {α : Type} (n : Nat)
    (edges : List (α × Nat × Nat))
    (hv : ∀ e ∈ edges, e.2.1 < n ∧ e.2.2 < n) (stF : DS)
    (hinvF : DSInv n stF)
    (hmatch : ∀ x y, x < n → y < n → (sameRootP stF x y ↔ Conn edges x y)) :
    rootsCard n stF = numComponents n edges := by
  unfold rootsCard numComponents
  apply Finset.card_bij (fun a _ => canonC edges n a)
  · intro a ha
    obtain ⟨har, _⟩ := Finset.mem_filter.mp ha
    exact Finset.mem_image.mpr ⟨a, har, rfl⟩
  · intro a1 ha1 a2 ha2 heq
    obtain ⟨h1r, h1p⟩ := Finset.mem_filter.mp ha1
    obtain ⟨h2r, h2p⟩ := Finset.mem_filter.mp ha2
    have h1n : a1 < n := Finset.mem_range.mp h1r
    have h2n : a2 < n := Finset.mem_range.mp h2r
    have hc1 := canonC_spec hv h1n
    have hc2 := canonC_spec hv h2n
    have hconn : Conn edges a1 a2 := by
      refine Conn_trans hc1.2 ?_
      rw [heq]
      exact Conn_symm hc2.2
    obtain ⟨r, hra, hrb⟩ := (hmatch a1 a2 h1n h2n).mpr hconn
    have he1 : r = a1 := RootsTo_of_root h1p hra
    have he2 : r = a2 := RootsTo_of_root h2p hrb
    rw [← he1, he2]
  · intro b hb
    obtain ⟨x, hxr, hxe⟩ := Finset.mem_image.mp hb
    have hxn : x < n := Finset.mem_range.mp hxr
    obtain ⟨r, hr⟩ := RootsTo_total hinvF x hxn
    have hrn : r < n := RootsTo_lt hinvF hxn hr
    have hrp : stF.parent r = r := RootsTo_isRoot hr
    have hsame : sameRootP stF x r := ⟨r, hr, RootsTo.root hrp⟩
    have hconn : Conn edges x r := (hmatch x r hxn hrn).mp hsame
    refine ⟨r, Finset.mem_filter.mpr ⟨Finset.mem_range.mpr hrn, hrp⟩, ?_⟩
    rw [← hxe]
    exact canonC_congr hv hrn hxn (Conn_symm hconn)

/-- C4.  For every valid graph on nodes `0, …, n-1`, the number of
`Accept` events of the Kruskal generator plus the number of connected
components equals `n`; in particular a connected graph yields exactly
`n - 1` accepted edges. -/
theorem c4_accept_count {α : Type} [LinearOrder α] (n : Nat)
    (edges : List (α × Nat × Nat))
    (hv : ∀ e ∈ edges, e.2.1 < n ∧ e.2.2 < n) :
    acceptCount (kruskalTrace n edges) + numComponents n edges = n ∧
    (numComponents n edges = 1 →
      acceptCount (kruskalTrace n edges) = n - 1) := by
  have hperm : List.Perm (sortEdges edges) edges :=
    List.perm_insertionSort _ edges
  have hvs : ∀ e ∈ sortEdges edges, e.2.1 < n ∧ e.2.2 < n :=
    fun e he => hv e (hperm.mem_iff.mp he)
  obtain ⟨hinvF, hpartF, hcount⟩ :=
    kruskal_fold n (sortEdges edges) [] (dsInit n) (DSInv_dsInit n) hvs
      (fun x y _ _ => by rw [sameRootP_dsInit, Conn_nil])
  have hpartF' : ∀ x y, x < n → y < n →
      (sameRootP (kruskalDS n (dsInit n) (sortEdges edges)) x y ↔
        Conn edges x y) := by
    intro x y hx hy
    refine (hpartF x y hx hy).trans ?_
    rw [List.nil_append]
    exact Conn_congr_mem (fun e => hperm.mem_iff) x y
  have hrc := rootsCard_eq_numComponents n edges hv _ hinvF hpartF'
  have hinit := rootsCard_dsInit n
  have hfirst : acceptCount (kruskalTrace n edges) +
      numComponents n edges = n := by
    have htr : kruskalTrace n edges =
        kruskalGo n (dsInit n) (sortEdges edges) := rfl
    rw [htr]
    omega
  exact ⟨hfirst, fun h1 => by omega⟩

theorem c4_witness :
    (∀ e ∈ DEFAULT_FARM_EDGES, e.2.1 < 5 ∧ e.2.2 < 5) ∧
    (acceptCount (kruskalTrace 5 DEFAULT_FARM_EDGES) +
        numComponents 5 DEFAULT_FARM_EDGES = 5 ∧
      (numComponents 5 DEFAULT_FARM_EDGES = 1 →
        acceptCount (kruskalTrace 5 DEFAULT_FARM_EDGES) = 5 - 1)) :=
  ⟨by decide, c4_accept_count 5 DEFAULT_FARM_EDGES (by decide)⟩

end Farm
